import Mathlib

/-!
# dcp: dynamic-programming routines

A shallow embedding of the Go sources under `dp/` (edit distance, counting
the ways to make change, fewest coins for change), of the searching and
sorting routines under `sorting/` and `trees/`, and of the array and
recursion exercises, together with the specifications they are checked
against.

Conventions of the embedding.

* A Go `string` is the sequence of its bytes.  The code only reads `len` and
  compares two bytes for equality, so the element type is kept abstract: a
  string is a `List α` with decidable equality.
* A Go slice is a `List`; `s[i]` is `List.getD s i 0` and `s[i] = v` is
  `List.set s i v`.  The loops only use indices that are in range, so the
  default of `getD` is never what is read.
* A counting `for` loop is a left fold over the list of the values its index
  takes (`List.range'`), threading the mutated slices through as state.
* Amounts and denominations are natural numbers (the documented precondition
  of the coin routines); values that may be the sentinel `-1` are `Int`.
  Go `int` is 64 bits wide: the entries of the edit-distance tables and of
  `totals` are bounded by the input sizes plus two, so they do not wrap.  The
  counting table `ways` is embedded twice: over unbounded integers, as the
  claims about the count are worded, and with the 64-bit wrap-around.
* Recursive Go functions that can fail to return take a fuel argument and
  return an `Option`; `none` stands for "no result" (fuel exhausted, or a
  panic on an index out of range).
-/

namespace Dcp

/-! ## dp/editDistance.go -/

namespace EditDistance

/-- Go `min(args ...int)`: start from `args[0]` and keep the smaller value while
ranging over `args`. -/
def min (args : List Nat) : Nat :=
  args.foldl (fun mn v => if mn > v then v else mn) (args.headD 0)

/-- Read of `dp[i][j]`. -/
def get2 (dp : List (List Nat)) (i j : Nat) : Nat :=
  (dp.getD i []).getD j 0

/-- Assignment `dp[i][j] = v`. -/
def set2 (dp : List (List Nat)) (i j v : Nat) : List (List Nat) :=
  dp.set i ((dp.getD i []).set j v)

/-- Function `LevenshteinDistance1(a, b)`: the full `(len(b)+1) × (len(a)+1)` table. -/
def LevenshteinDistance1 {α : Type} [DecidableEq α] (a b : List α) : Nat :=
  let dp : List (List Nat) := List.replicate (b.length + 1) []
  let dp := (List.range dp.length).foldl
    (fun dp x => dp.set x (List.replicate (a.length + 1) 0)) dp
  let dp := (List.range' 0 (b.length + 1)).foldl (fun dp i => set2 dp i 0 i) dp
  let dp := (List.range' 0 (a.length + 1)).foldl (fun dp j => set2 dp 0 j j) dp
  let dp := (List.range' 1 b.length).foldl (fun dp i =>
    (List.range' 1 a.length).foldl (fun dp j =>
      if a[j - 1]? = b[i - 1]? then
        set2 dp i j (get2 dp (i - 1) (j - 1))
      else
        set2 dp i j (1 + min [get2 dp (i - 1) j, get2 dp i (j - 1), get2 dp (i - 1) (j - 1)]))
      dp) dp
  get2 dp b.length a.length

/-- One pass of the inner `j` loop of `LevenshteinDistance`: fills `cur` for row `i`
of `big` from `prev`. -/
def rowLoop {α : Type} [DecidableEq α] (big small : List α) (i : Nat)
    (prev cur : List Nat) : List Nat :=
  (List.range' 1 small.length).foldl (fun cur j =>
    if small[j - 1]? = big[i - 1]? then
      cur.set j (prev.getD (j - 1) 0)
    else
      cur.set j (1 + min [prev.getD j 0, cur.getD (j - 1) 0, prev.getD (j - 1) 0])) cur

/-- Function `LevenshteinDistance(a, b)`: two rolling rows over the shorter string.
The loop state is the pair `(prev, cur)`; the three-assignment swap at the end of
the outer body exchanges the two components. -/
def LevenshteinDistance {α : Type} [DecidableEq α] (a b : List α) : Nat :=
  let bs : List α × List α := if a.length < b.length then (b, a) else (a, b)
  let big := bs.1
  let small := bs.2
  let prev : List Nat := List.replicate (small.length + 1) 0
  let cur : List Nat := List.replicate (small.length + 1) 0
  let prev := (List.range' 0 (small.length + 1)).foldl (fun prev i => prev.set i i) prev
  let st := (List.range' 1 big.length).foldl (fun (st : List Nat × List Nat) i =>
    let cur := st.2.set 0 i
    let cur := rowLoop big small i st.1 cur
    (cur, st.1)) (prev, cur)
  st.1.getD small.length 0

end EditDistance

/-! ## dp/makeChange.go -/

namespace MakeChange

/-- Function `NumberOfWaysToMakeChangeDP(n, denoms)` over unbounded integers: the
entries of `ways` are natural numbers and the addition is exact.  The same function
with the 64-bit arithmetic of Go is `NumberOfWaysToMakeChangeDP64`. -/
def NumberOfWaysToMakeChangeDP (n : Nat) (denoms : List Nat) : Nat :=
  let ways : List Nat := List.replicate (n + 1) 0
  let ways := ways.set 0 1
  let ways := denoms.foldl (fun ways d =>
    (List.range' 1 n).foldl (fun ways val =>
      if val ≥ d then ways.set val (ways.getD val 0 + ways.getD (val - d) 0) else ways)
      ways) ways
  ways.getD n 0

/-- Value that a Go `int` holds when the exact result of an expression is `x`: the
64-bit two's-complement wrap-around into `[-2^63, 2^63)`. -/
def wrap64 (x : Int) : Int :=
  (x + 9223372036854775808) % 18446744073709551616 - 9223372036854775808

/-- Function `NumberOfWaysToMakeChangeDP(n, denoms)` with the 64-bit `int` of Go: the
addition in `ways[val] += ways[val-d]` wraps around. -/
def NumberOfWaysToMakeChangeDP64 (n : Nat) (denoms : List Nat) : Int :=
  let ways : List Int := List.replicate (n + 1) 0
  let ways := ways.set 0 1
  let ways := denoms.foldl (fun ways d =>
    (List.range' 1 n).foldl (fun ways val =>
      if val ≥ d then ways.set val (wrap64 (ways.getD val 0 + ways.getD (val - d) 0))
      else ways)
      ways) ways
  ways.getD n 0

/-- Function `helper(n, denoms, dIdx)`.  The result is `none` when the fuel runs out
or when `denoms[dIdx]` is out of range (a Go panic). -/
def helper : Nat → Nat → List Nat → Nat → Option Nat
  | 0, _, _, _ => none
  | fuel + 1, n, denoms, dIdx =>
    if dIdx = denoms.length then some 0
    else if n = 0 then some 1
    else
      match helper fuel n denoms (dIdx + 1) with
      | none => none
      | some excl =>
        match denoms[dIdx]? with
        | none => none
        | some d =>
          if n ≥ d then
            match helper fuel (n - d) denoms dIdx with
            | none => none
            | some incl => some (excl + incl)
          else some (excl + 0)

/-- Function `NumberOfWaysToMakeChange(n, denoms)`, with the fuel of its `helper`. -/
def NumberOfWaysToMakeChange (fuel n : Nat) (denoms : List Nat) : Option Nat :=
  helper fuel n denoms 0

end MakeChange

/-! ## dp/minMakeChange.go -/

namespace MinMakeChange

/-- Go `min(args ...int)` of this file. -/
def min (args : List Int) : Int :=
  args.foldl (fun v a => if v > a then a else v) (args.headD 0)

/-- Body of the `range denoms` loop of `MinNumberOfCoinsForChangeRec`, with the
recursive call abstracted as `rec`. -/
def recLoop (rec : Nat → Option Int) (n : Nat) : List Nat → Int → Option Int
  | [], best => some best
  | d :: ds, best =>
    if n ≥ d then
      match rec (n - d) with
      | none => none
      | some r => recLoop rec n ds (min [best, r + 1])
    else recLoop rec n ds best

/-- Function `MinNumberOfCoinsForChangeRec(n, denoms)`; `none` when the fuel runs out. -/
def MinNumberOfCoinsForChangeRec : Nat → Nat → List Nat → Option Int
  | 0, _, _ => none
  | fuel + 1, n, denoms =>
    if n ≤ 0 then some 0
    else
      match recLoop (fun k => MinNumberOfCoinsForChangeRec fuel k denoms) n denoms
          ((n : Int) + 1) with
      | none => none
      | some best => if best > (n : Int) then some (-1) else some best

/-- Function `MinNumberOfCoinsForChangeDP(n, denoms)`. -/
def MinNumberOfCoinsForChangeDP (n : Nat) (denoms : List Nat) : Int :=
  let totals : List Int := List.replicate (n + 1) 0
  let totals := totals.set 0 0
  let totals := (List.range' 1 (totals.length - 1)).foldl
    (fun totals i => totals.set i ((n : Int) + 1)) totals
  let totals := denoms.foldl (fun totals d =>
    (List.range' 0 totals.length).foldl (fun totals v =>
      if v ≥ d then totals.set v (min [totals.getD (v - d) 0 + 1, totals.getD v 0])
      else totals) totals) totals
  if totals.getD n 0 > (n : Int) then -1 else totals.getD n 0

end MinMakeChange

/-! ## Results of functions that index a slice with a computed `int` -/

/-- Result of running a Go function: the value it returns, a run-time panic on an
index out of range, or no result within the fuel. -/
inductive Outcome where
  | ret (v : Int)
  | panic
  | noFuel
  deriving DecidableEq, Repr

/-- Go index expression `s[i]` for an `int` index: `none` when `i` is out of range. -/
def index (s : List Int) (i : Int) : Option Int :=
  if i < 0 then none else s[i.toNat]?

/-! ## arrays/validateSubsequence.go -/

namespace ValidateSubsequence

/-- Loop of `IsValidSubsequence1`, from the state `(aIndex, sIndex)`; the result is
the final `sIndex`. -/
def loop1 (array sequence : List Int) : Nat → Nat → Nat → Option Nat
  | 0, _, _ => none
  | fuel + 1, aIndex, sIndex =>
    if aIndex < array.length ∧ sIndex < sequence.length then
      match array[aIndex]?, sequence[sIndex]? with
      | some x, some y =>
        if x = y then loop1 array sequence fuel (aIndex + 1) (sIndex + 1)
        else loop1 array sequence fuel (aIndex + 1) sIndex
      | _, _ => none
    else some sIndex

/-- Function `IsValidSubsequence1(array, sequence)`. -/
def IsValidSubsequence1 (fuel : Nat) (array sequence : List Int) : Option Bool :=
  match loop1 array sequence fuel 0 0 with
  | none => none
  | some sIndex => some (decide (sequence.length = sIndex))

/-- Loop `for _, value := range array` of `IsValidSubsequence`, over the elements
still to be visited; the result is the final `sIndex`. -/
def rangeLoop (sequence : List Int) : List Int → Nat → Option Nat
  | [], sIndex => some sIndex
  | value :: rest, sIndex =>
    if sIndex = sequence.length then some sIndex
    else
      match sequence[sIndex]? with
      | none => none
      | some y =>
        if value = y then rangeLoop sequence rest (sIndex + 1)
        else rangeLoop sequence rest sIndex

/-- Function `IsValidSubsequence(array, sequence)`. -/
def IsValidSubsequence (array sequence : List Int) : Option Bool :=
  match rangeLoop sequence array 0 with
  | none => none
  | some sIndex => some (decide (sequence.length = sIndex))

end ValidateSubsequence

/-! ## sorting/binarySearch.go -/

namespace SortingBinarySearch

/-- Loop `for l<=r` of `BinarySearch`, from the state `(l, r)`. -/
def loop (array : List Int) (target : Int) : Nat → Int → Int → Outcome
  | 0, _, _ => Outcome.noFuel
  | fuel + 1, l, r =>
    if l ≤ r then
      let m := (l + r).tdiv 2
      match index array m with
      | none => Outcome.panic
      | some x =>
        if x = target then Outcome.ret m
        else if x > target then loop array target fuel l (m - 1)
        else loop array target fuel (m + 1) r
    else Outcome.ret (-1)

/-- Function `BinarySearch(array, target)` of sorting/binarySearch.go. -/
def BinarySearch (fuel : Nat) (array : List Int) (target : Int) : Outcome :=
  loop array target fuel 0 ((array.length : Int) - 1)

/-- Function `Helper(array, left, right, target)`. -/
def Helper (array : List Int) : Nat → Int → Int → Int → Outcome
  | 0, _, _, _ => Outcome.noFuel
  | fuel + 1, left, right, target =>
    if left > right then Outcome.ret (-1)
    else
      let m := (left + right).tdiv 2
      match index array m with
      | none => Outcome.panic
      | some x =>
        if x = target then Outcome.ret m
        else if x > target then Helper array fuel left (m - 1) target
        else Helper array fuel (m + 1) right target

/-- Function `BinarySearch1(array, target)`. -/
def BinarySearch1 (fuel : Nat) (array : List Int) (target : Int) : Outcome :=
  Helper array fuel 0 ((array.length : Int) - 1) target

end SortingBinarySearch

/-! ## trees/binarySearch.go -/

namespace TreesBinarySearch

/-- Loop `for l<=r` of `BinarySearchIter`, from the state `(l, r)`. -/
def iterLoop (array : List Int) (target : Int) : Nat → Int → Int → Outcome
  | 0, _, _ => Outcome.noFuel
  | fuel + 1, l, r =>
    if l ≤ r then
      let m := (l + r).tdiv 2
      match index array m with
      | none => Outcome.panic
      | some x =>
        if x = target then Outcome.ret m
        else if x > target then iterLoop array target fuel l (m - 1)
        else iterLoop array target fuel (m + 1) r
    else Outcome.ret (-1)

/-- Function `BinarySearchIter(array, target)`. -/
def BinarySearchIter (fuel : Nat) (array : List Int) (target : Int) : Outcome :=
  iterLoop array target fuel 0 ((array.length : Int) - 1)

/-- Function `helper(array, target, left, right)` of trees/binarySearch.go. -/
def helper (array : List Int) (target : Int) : Nat → Int → Int → Outcome
  | 0, _, _ => Outcome.noFuel
  | fuel + 1, left, right =>
    if left > right then Outcome.ret (-1)
    else
      let mid := left + (right - left).tdiv 2
      match index array mid with
      | none => Outcome.panic
      | some x =>
        if x = target then Outcome.ret mid
        else if x > target then helper array target fuel left (mid - 1)
        else helper array target fuel (mid + 1) right

/-- Function `BinarySearch(array, target)` of trees/binarySearch.go: the search starts
with `right = len(array)`. -/
def BinarySearch (fuel : Nat) (array : List Int) (target : Int) : Outcome :=
  helper array target fuel 0 (array.length : Int)

end TreesBinarySearch

/-! ## sorting/bubbleSort.go -/

namespace SortingBubbleSort

/-- Function `swap(i, j, array)`: both right-hand sides are read before the two
assignments. -/
def swap (i j : Nat) (array : List Int) : List Int :=
  (array.set i (array.getD j 0)).set j (array.getD i 0)

/-- Inner loop `for i:=0; i < len(array)-1-counter; i++` of `BubbleSort`, on the state
`(array, isSorted)`.  The bound is an `int` in Go; when it is not positive the loop
body does not run, which is what the truncated subtraction gives. -/
def pass (counter : Nat) (array : List Int) (isSorted : Bool) : List Int × Bool :=
  (List.range' 0 (array.length - 1 - counter)).foldl (fun (st : List Int × Bool) i =>
    let array := if st.1.getD i 0 > st.1.getD (i + 1) 0 then swap i (i + 1) st.1 else st.1
    (array, false)) (array, isSorted)

/-- Outer loop `for isSorted != true` of `BubbleSort`, from the state
`(array, isSorted, counter)`. -/
def loop : Nat → List Int → Bool → Nat → Option (List Int)
  | 0, _, _, _ => none
  | fuel + 1, array, isSorted, counter =>
    if isSorted != true then
      let st := pass counter array true
      loop fuel st.1 st.2 (counter + 1)
    else some array

/-- Function `BubbleSort(array)`. -/
def BubbleSort (fuel : Nat) (array : List Int) : Option (List Int) :=
  loop fuel array false 0

end SortingBubbleSort

/-! ## recursion/fibonacci.go -/

namespace Fibonacci

/-- Loop `for n>2` of `GetNthFibIter`, from the state `(n, first, second)`; `tmp` is
only the carrier of the new `second`. -/
def iterLoop : Nat → Int → Int → Int → Option Int
  | 0, _, _, _ => none
  | fuel + 1, n, first, second =>
    if n > 2 then iterLoop fuel (n - 1) second (first + second)
    else some second

/-- Function `GetNthFibIter(n)`. -/
def GetNthFibIter (fuel : Nat) (n : Int) : Option Int :=
  if n = 1 then some 0
  else if n = 2 then some 1
  else iterLoop fuel n 0 1

/-- Function `helper(n, mem)` of recursion/fibonacci.go.  The map `mem` is an
association list, the newest binding first, and is returned with the value because
the Go map is shared by all calls. -/
def helper : Nat → Int → List (Int × Int) → Option (Int × List (Int × Int))
  | 0, _, _ => none
  | fuel + 1, n, mem =>
    match mem.lookup n with
    | some val => some (val, mem)
    | none =>
      match helper fuel (n - 1) mem with
      | none => none
      | some (a, mem1) =>
        match helper fuel (n - 2) mem1 with
        | none => none
        | some (b, mem2) =>
          let mem3 := (n, a + b) :: mem2
          some ((mem3.lookup n).getD 0, mem3)

/-- Function `GetNthFibRecurMem(n)`. -/
def GetNthFibRecurMem (fuel : Nat) (n : Int) : Option Int :=
  match helper fuel n [(1, 0), (2, 1)] with
  | none => none
  | some (v, _) => some v

end Fibonacci

/-! ## arrays/findThreeLargest.go -/

namespace FindThreeLargest

/-- Go constant `math.MinInt32`. -/
def MinInt32 : Int := -2147483648

/-- Function `updateAndShift(val, three_numbers, idx)`. -/
def updateAndShift (val : Int) (three_numbers : List Int) (idx : Nat) : List Int :=
  (List.range' 0 (idx + 1)).foldl (fun three_numbers i =>
    if i = idx then three_numbers.set idx val
    else three_numbers.set i (three_numbers.getD (i + 1) 0)) three_numbers

/-- Function `updateLargest(three_numbers, val)`; the mutated slice is the result. -/
def updateLargest (three_numbers : List Int) (val : Int) : List Int :=
  if val > three_numbers.getD 2 0 then updateAndShift val three_numbers 2
  else if val > three_numbers.getD 1 0 then updateAndShift val three_numbers 1
  else if val > three_numbers.getD 0 0 then updateAndShift val three_numbers 0
  else three_numbers

/-- Function `FindThreeLargestNumbers(array)`. -/
def FindThreeLargestNumbers (array : List Int) : List Int :=
  array.foldl updateLargest [MinInt32, MinInt32, MinInt32]

end FindThreeLargest

/-! ## Specifications -/

namespace Spec

/-- One single-character edit of a string: insert, delete or replace one element at
any position. -/
inductive EditStep {α : Type} : List α → List α → Prop
  | insert (l r : List α) (x : α) : EditStep (l ++ r) (l ++ x :: r)
  | delete (l r : List α) (x : α) : EditStep (l ++ x :: r) (l ++ r)
  | replace (l r : List α) (x y : α) : EditStep (l ++ x :: r) (l ++ y :: r)

/-- Chain of edits: `EditChain k a b` says that string `b` is obtained from `a` by `k`
single-character edits applied one after the other. -/
inductive EditChain {α : Type} : Nat → List α → List α → Prop
  | refl (a : List α) : EditChain 0 a a
  | step {k : Nat} {a b c : List α} : EditChain k a b → EditStep b c → EditChain (k + 1) a c

/-- Inner recursion of `lev` over the second string, for a first string `x :: xs`;
`r` is `lev xs`. -/
def levRow {α : Type} [DecidableEq α] (x : α) (xs : List α) (r : List α → Nat) :
    List α → Nat
  | [] => xs.length + 1
  | y :: ys =>
    if x = y then r ys else 1 + Min.min (r (y :: ys)) (Min.min (levRow x xs r ys) (r ys))

/-- The textbook edit-distance recurrence on two lists, used as the bridge between
the tables of the code and `EditChain`. -/
def lev {α : Type} [DecidableEq α] : List α → List α → Nat
  | [] => fun ys => ys.length
  | x :: xs => levRow x xs (lev xs)

/-- Entry `(i, j)` of the edit-distance table: `lev` between the first `j` elements of
`a` and the first `i` elements of `b`, both read from their last element backwards. -/
def levTab {α : Type} [DecidableEq α] (a b : List α) (i j : Nat) : Nat :=
  lev (a.take j).reverse (b.take i).reverse

/-- Invariant of the table of `LevenshteinDistance1`: it has `len(b)+1` rows of
`len(a)+1` entries, and every cell selected by `S` already holds its final value. -/
def TableOk {α : Type} [DecidableEq α] (a b : List α) (dp : List (List Nat))
    (S : Nat → Nat → Prop) : Prop :=
  dp.length = b.length + 1 ∧
  (∀ i, i ≤ b.length → (dp.getD i []).length = a.length + 1) ∧
  ∀ i j, i ≤ b.length → j ≤ a.length → S i j → EditDistance.get2 dp i j = levTab a b i j

/-- Invariant of a row buffer of `LevenshteinDistance`: it has `len(small)+1`
entries and the first `l` of them hold row `i` of the table. -/
def RowOk {α : Type} [DecidableEq α] (big small : List α) (i l : Nat) (row : List Nat) :
    Prop :=
  row.length = small.length + 1 ∧ ∀ j, j < l → j ≤ small.length →
    row.getD j 0 = levTab small big i j

/-- The Fibonacci numbers as the comment and callers of recursion/fibonacci.go number
them: `fib 1 = 0`, `fib 2 = 1` and `fib k = fib (k - 1) + fib (k - 2)` for `k > 2`
(the value at 0 is not used). -/
def fib : Nat → Int
  | 0 => 0
  | 1 => 0
  | 2 => 1
  | k + 3 => fib (k + 2) + fib (k + 1)

/-- Invariant of the map of `GetNthFibRecurMem`: it holds the two initial bindings and
every binding is a Fibonacci number at a positive index. -/
def MemOk (mem : List (Int × Int)) : Prop :=
  mem.lookup 1 = some 0 ∧ mem.lookup 2 = some 1 ∧
  ∀ k v, mem.lookup k = some v → ∃ j : Nat, 1 ≤ j ∧ k = (j : Int) ∧ v = fib j

/-- Invariant of `BubbleSort`: every index from `k` on holds a value that is at least
every value before it. -/
def Dom (a : List Int) (k : Nat) : Prop :=
  ∀ i j, i ≤ j → j < a.length → k ≤ j → a.getD i 0 ≤ a.getD j 0

/-- The multisets of coins, each taken from `denoms`, whose values sum to `n`. -/
def changeMultisets (n : Nat) (denoms : List Nat) : Set (Multiset Nat) :=
  {m | (∀ c ∈ m, c ∈ denoms) ∧ m.sum = n}

/-- Invariant of the `ways` slice once the denominations `pre` have been processed:
entry `v` counts the multisets of coins from `pre` that sum to `v`. -/
def CountOk (n : Nat) (pre : List Nat) (w : List Nat) : Prop :=
  w.length = n + 1 ∧ ∀ v, v ≤ n → ((w.getD v 0 : Nat) : ENat) = (changeMultisets v pre).encard

/-- The slice `ways` of `NumberOfWaysToMakeChangeDP(n, denoms)` when the loop over
`denoms` has ended; the function returns its entry `n`. -/
def waysTable (n : Nat) (denoms : List Nat) : List Nat :=
  denoms.foldl (fun ways d =>
    (List.range' 1 n).foldl (fun ways val =>
      if val ≥ d then ways.set val (ways.getD val 0 + ways.getD (val - d) 0) else ways)
      ways) ((List.replicate (n + 1) 0).set 0 1)

/-- Entrywise order on two `ways` slices of the same length. -/
def RowLe (w w2 : List Nat) : Prop :=
  w.length = w2.length ∧ ∀ v, w.getD v 0 ≤ w2.getD v 0

/-- Invariant of the `totals` slice once the denominations `pre` have been processed:
entry `v` is a lower bound on the size of every multiset of coins from `pre` that
sums to `v`, and is the size of one of them unless it exceeds `n`. -/
def MinOk (n : Nat) (pre : List Nat) (t : List Int) : Prop :=
  t.length = n + 1 ∧ ∀ v, v ≤ n →
    (∀ m ∈ changeMultisets v pre, t.getD v 0 ≤ (Multiset.card m : Int)) ∧
    (t.getD v 0 ≤ (n : Int) →
      ∃ m ∈ changeMultisets v pre, (Multiset.card m : Int) = t.getD v 0)

end Spec

/-! ## The edit-distance recurrence and chains of edits -/

section LevTheory

open Spec

variable {α : Type} [DecidableEq α]

theorem lev_nil_left (ys : List α) : lev [] ys = ys.length := rfl

theorem lev_nil_right (xs : List α) : lev xs [] = xs.length := by
  cases xs <;> rfl

theorem lev_cons_cons (x y : α) (xs ys : List α) :
    lev (x :: xs) (y :: ys) =
      if x = y then lev xs ys
      else 1 + Min.min (lev xs (y :: ys)) (Min.min (lev (x :: xs) ys) (lev xs ys)) := rfl

theorem lev_comm (xs ys : List α) : lev xs ys = lev ys xs := by
  induction xs generalizing ys with
  | nil => rw [lev_nil_left, lev_nil_right]
  | cons x xs ihx =>
    induction ys with
    | nil => rw [lev_nil_left, lev_nil_right]
    | cons y ys ihy =>
      rw [lev_cons_cons, lev_cons_cons, ihx ys, ihx (y :: ys), ihy]
      by_cases h : x = y
      · subst h; simp
      · have h2 : ¬ y = x := fun e => h e.symm
        simp only [h, h2, if_false]
        omega

theorem lev_self (xs : List α) : lev xs xs = 0 := by
  induction xs with
  | nil => rfl
  | cons x xs ih => rw [lev_cons_cons]; simpa using ih

/-- Adding or dropping a head element of the second string moves `lev` by at most one. -/
theorem lev_head_lipschitz (m : Nat) : ∀ (a b : List α) (x : α), a.length + b.length ≤ m →
    lev a (x :: b) ≤ lev a b + 1 ∧ lev a b ≤ lev a (x :: b) + 1 := by
  induction m using Nat.strong_induction_on with
  | _ m ih =>
    intro a b x hm
    cases a with
    | nil => simp only [lev_nil_left, List.length_cons]; omega
    | cons p a =>
      have hlen : b.length + a.length < m := by simp at hm; omega
      have h1 := ih _ hlen b a p le_rfl
      rw [lev_comm b (p :: a), lev_comm b a] at h1
      have hlen2 : a.length + b.length < m := by simp at hm; omega
      have h2 := ih _ hlen2 a b x le_rfl
      rw [lev_cons_cons]
      by_cases h : p = x
      · simp only [h, if_true]
        subst h
        exact ⟨h1.2, h1.1⟩
      · simp only [h, if_false]
        omega

theorem lev_cons_le (a b : List α) (x : α) : lev a (x :: b) ≤ lev a b + 1 :=
  (lev_head_lipschitz _ a b x le_rfl).1

theorem lev_le_cons (a b : List α) (x : α) : lev a b ≤ lev a (x :: b) + 1 :=
  (lev_head_lipschitz _ a b x le_rfl).2

/-- If an edit of the second string moves `lev` by at most one against every first
string, so does the same edit behind a common head element. -/
theorem lev_cons_lipschitz (q : α) (b c : List α) (h : ∀ a, lev a c ≤ lev a b + 1) :
    ∀ a, lev a (q :: c) ≤ lev a (q :: b) + 1 := by
  intro a
  induction a with
  | nil =>
    have := h []
    simp only [lev_nil_left, List.length_cons] at this ⊢
    omega
  | cons p a ih =>
    have h1 := h (p :: a)
    have h2 := h a
    rw [lev_cons_cons, lev_cons_cons]
    by_cases hpq : p = q
    · simp only [hpq, if_true]; exact h2
    · simp only [hpq, if_false]; omega

theorem lev_replace_head (x y : α) (r : List α) :
    ∀ a, lev a (y :: r) ≤ lev a (x :: r) + 1 := by
  intro a
  induction a with
  | nil => simp [lev_nil_left]
  | cons p a ih =>
    have d1 := lev_le_cons a r x
    have d2 := lev_le_cons r a p
    rw [lev_comm r a, lev_comm r (p :: a)] at d2
    rw [lev_cons_cons, lev_cons_cons]
    by_cases hy : p = y <;> by_cases hx : p = x
    · rw [if_pos hy, if_pos hx]; omega
    · rw [if_pos hy, if_neg hx]; omega
    · rw [if_neg hy, if_pos hx]; omega
    · rw [if_neg hy, if_neg hx]; omega

theorem lev_insert (l r : List α) (x : α) : ∀ a, lev a (l ++ x :: r) ≤ lev a (l ++ r) + 1 := by
  induction l with
  | nil => intro a; exact lev_cons_le a r x
  | cons q l ih => exact lev_cons_lipschitz q _ _ ih

theorem lev_delete (l r : List α) (x : α) : ∀ a, lev a (l ++ r) ≤ lev a (l ++ x :: r) + 1 := by
  induction l with
  | nil => intro a; exact lev_le_cons a r x
  | cons q l ih => exact lev_cons_lipschitz q _ _ ih

theorem lev_replace (l r : List α) (x y : α) :
    ∀ a, lev a (l ++ y :: r) ≤ lev a (l ++ x :: r) + 1 := by
  induction l with
  | nil => exact lev_replace_head x y r
  | cons q l ih => exact lev_cons_lipschitz q _ _ ih

/-- A single edit of the second string moves `lev` by at most one. -/
theorem lev_step {b c : List α} (h : EditStep b c) (a : List α) : lev a c ≤ lev a b + 1 := by
  cases h with
  | insert l r x => exact lev_insert l r x a
  | delete l r x => exact lev_delete l r x a
  | replace l r x y => exact lev_replace l r x y a

/-- No chain of edits is shorter than `lev`. -/
theorem lev_le_of_chain {k : Nat} {a b : List α} (h : EditChain k a b) : lev a b ≤ k := by
  induction h with
  | refl a => simp [lev_self]
  | @step k a b c _ hs ih => have := lev_step hs a; omega

omit [DecidableEq α] in
theorem editStep_cons (x : α) {b c : List α} (h : EditStep b c) :
    EditStep (x :: b) (x :: c) := by
  cases h with
  | insert l r y => exact EditStep.insert (x :: l) r y
  | delete l r y => exact EditStep.delete (x :: l) r y
  | replace l r y z => exact EditStep.replace (x :: l) r y z

omit [DecidableEq α] in
theorem editStep_symm {b c : List α} (h : EditStep b c) : EditStep c b := by
  cases h with
  | insert l r y => exact EditStep.delete l r y
  | delete l r y => exact EditStep.insert l r y
  | replace l r y z => exact EditStep.replace l r z y

omit [DecidableEq α] in
theorem editStep_reverse {b c : List α} (h : EditStep b c) :
    EditStep b.reverse c.reverse := by
  cases h with
  | insert l r y =>
    have := EditStep.insert r.reverse l.reverse y
    simpa using this
  | delete l r y =>
    have := EditStep.delete r.reverse l.reverse y
    simpa using this
  | replace l r y z =>
    have := EditStep.replace r.reverse l.reverse y z
    simpa using this

omit [DecidableEq α] in
theorem editChain_cons (x : α) {k : Nat} {a b : List α} (h : EditChain k a b) :
    EditChain k (x :: a) (x :: b) := by
  induction h with
  | refl a => exact EditChain.refl _
  | step _ hs ih => exact EditChain.step ih (editStep_cons x hs)

omit [DecidableEq α] in
theorem editChain_head {k : Nat} {a b c : List α} (hs : EditStep a b) (h : EditChain k b c) :
    EditChain (k + 1) a c := by
  induction h with
  | refl b => exact EditChain.step (EditChain.refl a) hs
  | step _ hs2 ih => exact EditChain.step (ih hs) hs2

omit [DecidableEq α] in
theorem editChain_symm {k : Nat} {a b : List α} (h : EditChain k a b) : EditChain k b a := by
  induction h with
  | refl a => exact EditChain.refl a
  | step _ hs ih => exact editChain_head (editStep_symm hs) ih

omit [DecidableEq α] in
theorem editChain_reverse {k : Nat} {a b : List α} (h : EditChain k a b) :
    EditChain k a.reverse b.reverse := by
  induction h with
  | refl a => exact EditChain.refl _
  | step _ hs ih => exact EditChain.step ih (editStep_reverse hs)

omit [DecidableEq α] in
theorem editChain_of_nil (ys : List α) : EditChain ys.length [] ys := by
  induction ys with
  | nil => exact EditChain.refl _
  | cons y ys ih => exact EditChain.step ih (EditStep.insert [] ys y)

omit [DecidableEq α] in
theorem editChain_to_nil (xs : List α) : EditChain xs.length xs [] :=
  editChain_symm (editChain_of_nil xs)

/-- The recurrence `lev` is realised by a chain of edits. -/
theorem chain_lev (xs ys : List α) : EditChain (lev xs ys) xs ys := by
  induction xs generalizing ys with
  | nil => exact editChain_of_nil ys
  | cons x xs ihx =>
    induction ys with
    | nil => rw [lev_nil_right]; exact editChain_to_nil _
    | cons y ys ihy =>
      rw [lev_cons_cons]
      by_cases h : x = y
      · subst h
        simp only [if_true]
        exact editChain_cons x (ihx ys)
      · simp only [h, if_false]
        have c1 : EditChain (lev xs (y :: ys) + 1) (x :: xs) (y :: ys) :=
          editChain_head (EditStep.delete [] xs x) (ihx (y :: ys))
        have c2 : EditChain (lev (x :: xs) ys + 1) (x :: xs) (y :: ys) :=
          EditChain.step ihy (EditStep.insert [] ys y)
        have c3 : EditChain (lev xs ys + 1) (x :: xs) (y :: ys) :=
          EditChain.step (editChain_cons x (ihx ys)) (EditStep.replace [] ys x y)
        rcases min_choice (lev xs (y :: ys)) (Min.min (lev (x :: xs) ys) (lev xs ys)) with e | e
        · rw [e, Nat.add_comm]; exact c1
        · rw [e]
          rcases min_choice (lev (x :: xs) ys) (lev xs ys) with e2 | e2
          · rw [e2, Nat.add_comm]; exact c2
          · rw [e2, Nat.add_comm]; exact c3

/-- The recurrence `lev` is the least number of single-character edits. -/
theorem lev_isLeast (a b : List α) : IsLeast {k | EditChain k a b} (lev a b) :=
  ⟨chain_lev a b, fun _ hk => lev_le_of_chain hk⟩

theorem lev_reverse (a b : List α) : lev a.reverse b.reverse = lev a b := by
  apply le_antisymm
  · exact lev_le_of_chain (editChain_reverse (chain_lev a b))
  · have := editChain_reverse (chain_lev a.reverse b.reverse)
    rw [List.reverse_reverse, List.reverse_reverse] at this
    exact lev_le_of_chain this

theorem lev_le_max (a b : List α) : lev a b ≤ max a.length b.length := by
  induction a generalizing b with
  | nil => simp [lev_nil_left]
  | cons x xs ih =>
    cases b with
    | nil => simp [lev_nil_right]
    | cons y ys =>
      have := ih ys
      rw [lev_cons_cons]
      by_cases h : x = y
      · simp only [h, if_true, List.length_cons]; omega
      · simp only [h, if_false, List.length_cons]; omega

end LevTheory

/-! ## Loops and slices -/

section Loops

/-- Invariant rule for a counting loop `for k := s; k < s + n; k++`. -/
theorem foldl_range'_inv {σ : Type} (f : σ → Nat → σ) (I : Nat → σ → Prop) :
    ∀ (n s : Nat) (init : σ), I s init →
      (∀ k st, s ≤ k → k < s + n → I k st → I (k + 1) (f st k)) →
      I (s + n) ((List.range' s n).foldl f init) := by
  intro n
  induction n with
  | zero => intro s init h0 _; simpa using h0
  | succ n ih =>
    intro s init h0 hstep
    have e : List.range' s (n + 1) = s :: List.range' (s + 1) n := rfl
    rw [e, List.foldl_cons]
    have e2 : s + (n + 1) = (s + 1) + n := by omega
    rw [e2]
    apply ih
    · exact hstep s init le_rfl (by omega) h0
    · intro k st h1 h2 h3
      exact hstep k st (by omega) (by omega) h3

theorem getD_set_eq {β : Type} (l : List β) (i : Nat) (v d : β) (h : i < l.length) :
    (l.set i v).getD i d = v := by
  simp [List.getD_eq_getElem?_getD, List.getElem?_set, h]

theorem getD_set_ne {β : Type} (l : List β) (i j : Nat) (v d : β) (h : i ≠ j) :
    (l.set i v).getD j d = l.getD j d := by
  simp [List.getD_eq_getElem?_getD, List.getElem?_set, h]

theorem getD_set {β : Type} (l : List β) (i j : Nat) (v d : β) :
    (l.set i v).getD j d = if i = j ∧ i < l.length then v else l.getD j d := by
  by_cases e : i = j
  · subst e
    by_cases h : i < l.length
    · rw [getD_set_eq _ _ _ _ h, if_pos ⟨rfl, h⟩]
    · rw [if_neg (fun hh => h hh.2)]
      have h1 : l.length ≤ i := by omega
      simp [List.getD_eq_getElem?_getD, List.getElem?_set, h, List.getElem?_eq_none h1]
  · rw [getD_set_ne _ _ _ _ _ e, if_neg (fun hh => e hh.1)]

end Loops

/-! ## The tables of dp/editDistance.go -/

section EditDistanceCode

open Spec EditDistance

variable {α : Type} [DecidableEq α]

theorem min3_eq (p q r : Nat) : EditDistance.min [p, q, r] = Min.min p (Min.min q r) := by
  simp only [EditDistance.min, List.foldl_cons, List.foldl_nil, List.headD_cons]
  split_ifs <;> omega

theorem get2_set2_eq (dp : List (List Nat)) (i j v : Nat) (hi : i < dp.length)
    (hj : j < (dp.getD i []).length) : get2 (set2 dp i j v) i j = v := by
  unfold get2 set2
  rw [getD_set_eq _ _ _ _ hi, getD_set_eq _ _ _ _ hj]

theorem get2_set2_ne (dp : List (List Nat)) (i j v i2 j2 : Nat) (hi : i < dp.length)
    (h : ¬ (i2 = i ∧ j2 = j)) : get2 (set2 dp i j v) i2 j2 = get2 dp i2 j2 := by
  unfold get2 set2
  by_cases e : i = i2
  · subst e
    rw [getD_set_eq _ _ _ _ hi]
    have : j ≠ j2 := fun e2 => h ⟨rfl, e2.symm⟩
    rw [getD_set_ne _ _ _ _ _ this]
  · rw [getD_set_ne _ _ _ _ _ e]

theorem set2_row_length (dp : List (List Nat)) (i j v i2 : Nat) (hi : i < dp.length) :
    ((set2 dp i j v).getD i2 []).length = (dp.getD i2 []).length := by
  unfold set2
  by_cases e : i = i2
  · subst e
    rw [getD_set_eq _ _ _ _ hi, List.length_set]
  · rw [getD_set_ne _ _ _ _ _ e]

theorem levTab_zero_row (a b : List α) (j : Nat) (hj : j ≤ a.length) : levTab a b 0 j = j := by
  simp [levTab, lev_nil_right, hj]

theorem levTab_zero_col (a b : List α) (i : Nat) (hi : i ≤ b.length) : levTab a b i 0 = i := by
  simp [levTab, lev_nil_left, hi]

omit [DecidableEq α] in
theorem take_succ_reverse (l : List α) (j : Nat) (h : j < l.length) :
    (l.take (j + 1)).reverse = l[j] :: (l.take j).reverse := by
  rw [List.take_succ]; simp [List.getElem?_eq_getElem h]

theorem levTab_succ (a b : List α) (i j : Nat) (hi : i < b.length) (hj : j < a.length) :
    levTab a b (i + 1) (j + 1) =
      if a[j]? = b[i]? then levTab a b i j
      else 1 + Min.min (levTab a b i (j + 1))
        (Min.min (levTab a b (i + 1) j) (levTab a b i j)) := by
  unfold levTab
  rw [take_succ_reverse a j hj, take_succ_reverse b i hi, lev_cons_cons,
    List.getElem?_eq_getElem hj, List.getElem?_eq_getElem hi]
  by_cases e : a[j] = b[i]
  · simp [e]
  · have e2 : ¬ (some a[j] = some b[i]) := fun h => e (Option.some.inj h)
    rw [if_neg e, if_neg e2]
    omega

theorem levTab_full (a b : List α) : levTab a b b.length a.length = lev a b := by
  simp [levTab, lev_reverse]

theorem tableOk_mono {a b : List α} {dp : List (List Nat)} {S S2 : Nat → Nat → Prop}
    (h : TableOk a b dp S)
    (hS : ∀ i j, i ≤ b.length → j ≤ a.length → S2 i j → S i j) : TableOk a b dp S2 :=
  ⟨h.1, h.2.1, fun i j hi hj hs => h.2.2 i j hi hj (hS i j hi hj hs)⟩

/-- Writing the final value of cell `(i, j)` extends the set of finished cells by it. -/
theorem tableOk_write {a b : List α} {dp : List (List Nat)} {S S2 : Nat → Nat → Prop}
    (h : TableOk a b dp S) (i j v : Nat) (hi : i ≤ b.length) (hj : j ≤ a.length)
    (hv : v = levTab a b i j)
    (hS : ∀ i2 j2, i2 ≤ b.length → j2 ≤ a.length → S2 i2 j2 → S i2 j2 ∨ (i2 = i ∧ j2 = j)) :
    TableOk a b (EditDistance.set2 dp i j v) S2 := by
  obtain ⟨h1, h2, h3⟩ := h
  have hi2 : i < dp.length := by omega
  refine ⟨?_, ?_, ?_⟩
  · simp [EditDistance.set2, h1]
  · intro i2 hi3
    rw [set2_row_length _ _ _ _ _ hi2]; exact h2 i2 hi3
  · intro i2 j2 hi3 hj3 hs
    by_cases e : i2 = i ∧ j2 = j
    · obtain ⟨rfl, rfl⟩ := e
      rw [get2_set2_eq _ _ _ _ hi2 (by rw [h2 i2 hi]; omega)]; exact hv
    · rw [get2_set2_ne _ _ _ _ _ _ hi2 e]
      rcases hS i2 j2 hi3 hj3 hs with h4 | h4
      · exact h3 i2 j2 hi3 hj3 h4
      · exact absurd h4 e

/-- After the allocation loop the table has its full shape. -/
theorem table_alloc (a b : List α) :
    TableOk a b ((List.range (List.replicate (b.length + 1) ([] : List Nat)).length).foldl
      (fun dp x => dp.set x (List.replicate (a.length + 1) 0))
      (List.replicate (b.length + 1) [])) (fun _ _ => False) := by
  rw [List.length_replicate, List.range_eq_range']
  have h := foldl_range'_inv (fun (dp : List (List Nat)) x => dp.set x (List.replicate (a.length + 1) 0))
    (fun k dp => dp.length = b.length + 1 ∧ ∀ i, i < k → (dp.getD i []).length = a.length + 1)
    (b.length + 1) 0 (List.replicate (b.length + 1) []) ⟨by simp, fun i hi => by omega⟩
    (by
      intro k st _ hk ⟨h1, h2⟩
      refine ⟨by simp [h1], fun i hi => ?_⟩
      by_cases e : k = i
      · subst e; rw [getD_set_eq _ _ _ _ (by omega)]; simp
      · rw [getD_set_ne _ _ _ _ _ e]; exact h2 i (by omega))
  exact ⟨h.1, fun i hi => h.2 i (by omega), fun _ _ _ _ hf => hf.elim⟩

/-- After the first initialisation loop column 0 is final. -/
theorem table_col0 (a b : List α) (dp : List (List Nat)) (h : TableOk a b dp (fun _ _ => False)) :
    TableOk a b ((List.range' 0 (b.length + 1)).foldl (fun dp i => set2 dp i 0 i) dp)
      (fun _ j => j = 0) := by
  have h2 := foldl_range'_inv (fun (dp : List (List Nat)) i => set2 dp i 0 i)
    (fun k dp => TableOk a b dp (fun i j => j = 0 ∧ i < k))
    (b.length + 1) 0 dp (tableOk_mono h (fun i j _ _ hs => by omega))
    (by
      intro k st _ hk hst
      exact tableOk_write hst k 0 k (by omega) (by omega) (levTab_zero_col a b k (by omega)).symm
        (fun i2 j2 _ _ hs => by omega))
  exact tableOk_mono h2 (fun i j hi _ hs => by omega)

/-- After the second initialisation loop row 0 is final as well. -/
theorem table_row0 (a b : List α) (dp : List (List Nat)) (h : TableOk a b dp (fun _ j => j = 0)) :
    TableOk a b ((List.range' 0 (a.length + 1)).foldl (fun dp j => set2 dp 0 j j) dp)
      (fun i j => j = 0 ∨ i = 0) := by
  have h2 := foldl_range'_inv (fun (dp : List (List Nat)) j => set2 dp 0 j j)
    (fun k dp => TableOk a b dp (fun i j => j = 0 ∨ (i = 0 ∧ j < k)))
    (a.length + 1) 0 dp (tableOk_mono h (fun i j _ _ hs => by omega))
    (by
      intro k st _ hk hst
      exact tableOk_write hst 0 k k (by omega) (by omega) (levTab_zero_row a b k (by omega)).symm
        (fun i2 j2 _ _ hs => by omega))
  exact tableOk_mono h2 (fun i j _ hj hs => by omega)

/-- One run of the inner loop of `LevenshteinDistance1` completes row `i`. -/
theorem table_inner (a b : List α) (dp : List (List Nat)) (i : Nat) (hi1 : 1 ≤ i)
    (hi2 : i ≤ b.length) (h : TableOk a b dp (fun i2 j => j = 0 ∨ i2 < i)) :
    TableOk a b ((List.range' 1 a.length).foldl (fun dp j =>
      if a[j - 1]? = b[i - 1]? then
        set2 dp i j (get2 dp (i - 1) (j - 1))
      else
        set2 dp i j (1 + EditDistance.min
          [get2 dp (i - 1) j, get2 dp i (j - 1), get2 dp (i - 1) (j - 1)])) dp)
      (fun i2 j => j = 0 ∨ i2 < i + 1) := by
  have h2 := foldl_range'_inv (fun (dp : List (List Nat)) j =>
      if a[j - 1]? = b[i - 1]? then
        set2 dp i j (get2 dp (i - 1) (j - 1))
      else
        set2 dp i j (1 + EditDistance.min
          [get2 dp (i - 1) j, get2 dp i (j - 1), get2 dp (i - 1) (j - 1)]))
    (fun l dp => TableOk a b dp (fun i2 j => j = 0 ∨ i2 < i ∨ (i2 = i ∧ j < l)))
    a.length 1 dp (tableOk_mono h (fun i2 j _ _ hs => by omega))
    (by
      intro l st hl1 hl2 hst
      have g1 : get2 st (i - 1) (l - 1) = levTab a b (i - 1) (l - 1) :=
        hst.2.2 _ _ (by omega) (by omega) (by omega)
      have g2 : get2 st (i - 1) l = levTab a b (i - 1) l :=
        hst.2.2 _ _ (by omega) (by omega) (by omega)
      have g3 : get2 st i (l - 1) = levTab a b i (l - 1) :=
        hst.2.2 _ _ (by omega) (by omega) (by omega)
      have key := levTab_succ a b (i - 1) (l - 1) (by omega) (by omega)
      have ei : i - 1 + 1 = i := by omega
      have el : l - 1 + 1 = l := by omega
      rw [ei, el] at key
      have hS : ∀ i2 j2, i2 ≤ b.length → j2 ≤ a.length →
          (j2 = 0 ∨ i2 < i ∨ (i2 = i ∧ j2 < l + 1)) →
          (j2 = 0 ∨ i2 < i ∨ (i2 = i ∧ j2 < l)) ∨ (i2 = i ∧ j2 = l) :=
        fun i2 j2 _ _ hs => by omega
      show TableOk a b (if a[l - 1]? = b[i - 1]? then _ else _) _
      by_cases e : a[l - 1]? = b[i - 1]?
      · rw [if_pos e]
        rw [if_pos e] at key
        exact tableOk_write hst i l _ hi2 (by omega) (by rw [g1, key]) hS
      · rw [if_neg e]
        rw [if_neg e] at key
        exact tableOk_write hst i l _ hi2 (by omega) (by rw [g1, g2, g3, min3_eq, key]) hS)
  exact tableOk_mono h2 (fun i2 j _ hj hs => by omega)

/-- Both implementations compute the recurrence `lev`: the full table. -/
theorem LevenshteinDistance1_eq_lev (a b : List α) : LevenshteinDistance1 a b = lev a b := by
  have h3 := table_row0 a b _ (table_col0 a b _ (table_alloc a b))
  have h4 := foldl_range'_inv (fun (dp : List (List Nat)) i =>
      (List.range' 1 a.length).foldl (fun dp j =>
        if a[j - 1]? = b[i - 1]? then
          set2 dp i j (get2 dp (i - 1) (j - 1))
        else
          set2 dp i j (1 + EditDistance.min
            [get2 dp (i - 1) j, get2 dp i (j - 1), get2 dp (i - 1) (j - 1)])) dp)
    (fun k dp => TableOk a b dp (fun i2 j => j = 0 ∨ i2 < k))
    b.length 1 _ (tableOk_mono h3 (fun i2 j _ _ hs => by omega))
    (fun k st hk1 hk2 hst => table_inner a b st k hk1 (by omega) hst)
  have h5 := h4.2.2 b.length a.length le_rfl le_rfl (by omega)
  rw [levTab_full] at h5
  exact h5

/-- The initialisation loop of `LevenshteinDistance` fills row 0. -/
theorem row_init (big small : List α) :
    RowOk big small 0 (small.length + 1)
      ((List.range' 0 (small.length + 1)).foldl (fun prev i => prev.set i i)
        (List.replicate (small.length + 1) 0)) := by
  have h := foldl_range'_inv (fun (prev : List Nat) i => prev.set i i)
    (fun k row => RowOk big small 0 k row) (small.length + 1) 0
    (List.replicate (small.length + 1) 0) ⟨by simp, fun j hj _ => by omega⟩
    (by
      intro k st _ hk ⟨h1, h2⟩
      refine ⟨by simp [h1], fun j hj hjn => ?_⟩
      by_cases e : k = j
      · subst e
        rw [getD_set_eq _ _ _ _ (by omega), levTab_zero_row small big k hjn]
      · rw [getD_set_ne _ _ _ _ _ e]; exact h2 j (by omega) hjn)
  simpa using h

/-- One run of the inner loop of `LevenshteinDistance` fills row `i` from row `i - 1`. -/
theorem rowLoop_ok (big small : List α) (i : Nat) (hi1 : 1 ≤ i) (hi2 : i ≤ big.length)
    (prev cur : List Nat) (hp : RowOk big small (i - 1) (small.length + 1) prev)
    (hc : RowOk big small i 1 cur) :
    RowOk big small i (small.length + 1) (rowLoop big small i prev cur) := by
  have h := foldl_range'_inv (fun (cur : List Nat) j =>
      if small[j - 1]? = big[i - 1]? then
        cur.set j (prev.getD (j - 1) 0)
      else
        cur.set j (1 + EditDistance.min [prev.getD j 0, cur.getD (j - 1) 0, prev.getD (j - 1) 0]))
    (fun l row => RowOk big small i l row) small.length 1 cur hc
    (by
      intro l st hl1 hl2 ⟨h1, h2⟩
      have g1 : prev.getD (l - 1) 0 = levTab small big (i - 1) (l - 1) :=
        hp.2 _ (by omega) (by omega)
      have g2 : prev.getD l 0 = levTab small big (i - 1) l := hp.2 _ (by omega) (by omega)
      have g3 : st.getD (l - 1) 0 = levTab small big i (l - 1) := h2 _ (by omega) (by omega)
      have key := levTab_succ small big (i - 1) (l - 1) (by omega) (by omega)
      have ei : i - 1 + 1 = i := by omega
      have el : l - 1 + 1 = l := by omega
      rw [ei, el] at key
      show RowOk big small i (l + 1) (if small[l - 1]? = big[i - 1]? then _ else _)
      by_cases e : small[l - 1]? = big[i - 1]?
      · rw [if_pos e]
        rw [if_pos e] at key
        refine ⟨by simp [h1], fun j hj hjn => ?_⟩
        by_cases e2 : l = j
        · subst e2
          rw [getD_set_eq _ _ _ _ (by omega), g1, key]
        · rw [getD_set_ne _ _ _ _ _ e2]; exact h2 j (by omega) hjn
      · rw [if_neg e]
        rw [if_neg e] at key
        refine ⟨by simp [h1], fun j hj hjn => ?_⟩
        by_cases e2 : l = j
        · subst e2
          rw [getD_set_eq _ _ _ _ (by omega), g1, g2, g3, min3_eq, key]
        · rw [getD_set_ne _ _ _ _ _ e2]; exact h2 j (by omega) hjn)
  have e : 1 + small.length = small.length + 1 := by omega
  rw [e] at h
  exact h

/-- The two rolling rows, run over `big` (outer) and `small` (inner), end with the last
row of the table in `prev`. -/
theorem rolling_eq_lev (big small : List α) :
    ((List.range' 1 big.length).foldl (fun (st : List Nat × List Nat) i =>
        (rowLoop big small i st.1 (st.2.set 0 i), st.1))
      ((List.range' 0 (small.length + 1)).foldl (fun prev i => prev.set i i)
        (List.replicate (small.length + 1) 0),
       List.replicate (small.length + 1) 0)).1.getD small.length 0 = lev small big := by
  have h := foldl_range'_inv (fun (st : List Nat × List Nat) i =>
        (rowLoop big small i st.1 (st.2.set 0 i), st.1))
    (fun k st => RowOk big small (k - 1) (small.length + 1) st.1 ∧
      st.2.length = small.length + 1)
    big.length 1
    ((List.range' 0 (small.length + 1)).foldl (fun prev i => prev.set i i)
        (List.replicate (small.length + 1) 0),
       List.replicate (small.length + 1) 0)
    ⟨row_init big small, by simp⟩
    (by
      intro k st hk1 hk2 ⟨h1, h2⟩
      refine ⟨?_, h1.1⟩
      have ek : k + 1 - 1 = k := by omega
      rw [ek]
      apply rowLoop_ok big small k hk1 (by omega) _ _ h1
      refine ⟨by simp [h2], fun j hj _ => ?_⟩
      have ej : j = 0 := by omega
      subst ej
      rw [getD_set_eq _ _ _ _ (by omega), levTab_zero_col small big k (by omega)])
  have h2 := h.1.2 small.length (by omega) le_rfl
  have e : 1 + big.length - 1 = big.length := by omega
  rw [e, levTab_full] at h2
  exact h2

/-- Both implementations compute the recurrence `lev`: the rolling rows. -/
theorem LevenshteinDistance_eq_lev (a b : List α) : LevenshteinDistance a b = lev a b := by
  unfold LevenshteinDistance
  by_cases h : a.length < b.length
  · rw [if_pos h]
    exact rolling_eq_lev b a
  · rw [if_neg h]
    exact (rolling_eq_lev a b).trans (lev_comm b a)

end EditDistanceCode

/-! ## Multisets of coins -/

section Coins

open Spec

theorem changeMultisets_nil (v : Nat) :
    changeMultisets v [] = if v = 0 then {0} else ∅ := by
  ext m
  simp only [changeMultisets, Set.mem_setOf_eq, List.not_mem_nil, imp_false]
  constructor
  · rintro ⟨h1, h2⟩
    have hm : m = 0 := Multiset.eq_zero_of_forall_not_mem h1
    subst hm
    simp at h2
    simp [← h2]
  · intro h
    split_ifs at h with hv
    · have hm : m = 0 := by simpa using h
      subst hm; subst hv; simp
    · exact absurd h (by simp)

theorem changeMultisets_mono (v : Nat) {l1 l2 : List Nat} (h : ∀ c ∈ l1, c ∈ l2) :
    changeMultisets v l1 ⊆ changeMultisets v l2 :=
  fun _ hm => ⟨fun c hc => h c (hm.1 c hc), hm.2⟩

/-- Adding a coin `d` to a multiset for `v - d` gives one for `v`. -/
theorem changeMultisets_cons {v d : Nat} {l : List Nat} (hd : d ∈ l) (hv : d ≤ v)
    {m : Multiset Nat} (hm : m ∈ changeMultisets (v - d) l) :
    d ::ₘ m ∈ changeMultisets v l := by
  refine ⟨fun c hc => ?_, ?_⟩
  · rcases Multiset.mem_cons.1 hc with e | e
    · rw [e]; exact hd
    · exact hm.1 c e
  · rw [Multiset.sum_cons, hm.2]; omega

/-- Removing a coin `d` from a multiset for `v` gives one for `v - d`. -/
theorem changeMultisets_erase {v d : Nat} {l : List Nat} {m : Multiset Nat}
    (hm : m ∈ changeMultisets v l) (hd : d ∈ m) :
    d ≤ v ∧ m.erase d ∈ changeMultisets (v - d) l ∧ d ::ₘ m.erase d = m := by
  have e := Multiset.cons_erase hd
  have hs : d + (m.erase d).sum = v := by
    rw [← Multiset.sum_cons, e]; exact hm.2
  refine ⟨by omega, ⟨fun c hc => hm.1 c (Multiset.mem_of_mem_erase hc), by omega⟩, e⟩

/-- A multiset over `pre ++ [d]` that does not use `d` is a multiset over `pre`. -/
theorem changeMultisets_not_mem {v d : Nat} {pre : List Nat} {m : Multiset Nat}
    (hm : m ∈ changeMultisets v (pre ++ [d])) (hd : d ∉ m) : m ∈ changeMultisets v pre := by
  refine ⟨fun c hc => ?_, hm.2⟩
  have := hm.1 c hc
  rw [List.mem_append, List.mem_singleton] at this
  rcases this with h | h
  · exact h
  · subst h; exact absurd hc hd

/-- Counting recurrence: a multiset over `pre ++ [d]` either avoids the new coin `d`
or is a multiset for `v - d` with one more `d`. -/
theorem encard_changeMultisets_snoc (v d : Nat) (pre : List Nat) (hnd : d ∉ pre) :
    (changeMultisets v (pre ++ [d])).encard =
      (changeMultisets v pre).encard +
        (if d ≤ v then (changeMultisets (v - d) (pre ++ [d])).encard else 0) := by
  have hsub : ∀ c ∈ pre, c ∈ pre ++ [d] := fun c hc => List.mem_append_left _ hc
  have hdm : d ∈ pre ++ [d] := by simp
  by_cases hv : d ≤ v
  · rw [if_pos hv]
    have hu : changeMultisets v (pre ++ [d]) =
        changeMultisets v pre ∪
          (fun m => d ::ₘ m) '' changeMultisets (v - d) (pre ++ [d]) := by
      ext m
      constructor
      · intro hm
        by_cases hd : d ∈ m
        · obtain ⟨_, h2, h3⟩ := changeMultisets_erase hm hd
          exact Or.inr ⟨m.erase d, h2, h3⟩
        · exact Or.inl (changeMultisets_not_mem hm hd)
      · rintro (hm | ⟨m2, hm2, rfl⟩)
        · exact changeMultisets_mono v hsub hm
        · exact changeMultisets_cons hdm hv hm2
    have hdis : Disjoint (changeMultisets v pre)
        ((fun m => d ::ₘ m) '' changeMultisets (v - d) (pre ++ [d])) := by
      rw [Set.disjoint_left]
      rintro m hm ⟨m2, _, rfl⟩
      exact hnd (hm.1 d (Multiset.mem_cons_self d m2))
    have hinj : Function.Injective (fun m : Multiset Nat => d ::ₘ m) :=
      fun m1 m2 h => (Multiset.cons_inj_right d).1 h
    rw [hu, Set.encard_union_eq hdis, hinj.encard_image]
  · rw [if_neg hv, add_zero]
    congr 1
    apply Set.Subset.antisymm
    · intro m hm
      by_cases hd : d ∈ m
      · exact absurd (changeMultisets_erase hm hd).1 hv
      · exact changeMultisets_not_mem hm hd
    · exact changeMultisets_mono v hsub

/-- With positive denominations a multiset has at most as many coins as its sum. -/
theorem card_le_of_mem_changeMultisets {v : Nat} {l : List Nat} (hpos : ∀ d ∈ l, 0 < d)
    {m : Multiset Nat} (hm : m ∈ changeMultisets v l) : Multiset.card m ≤ v := by
  obtain ⟨h1, h2⟩ := hm
  subst h2
  induction m using Multiset.induction_on with
  | empty => simp
  | cons c m ih =>
    have hc := hpos c (h1 c (Multiset.mem_cons_self c m))
    have := ih (fun x hx => h1 x (Multiset.mem_cons_of_mem hx))
    rw [Multiset.card_cons, Multiset.sum_cons]
    omega

end Coins

/-! ## The table of dp/makeChange.go -/

section MakeChangeCode

open Spec MakeChange

/-- The inner loop of `NumberOfWaysToMakeChangeDP` for a positive denomination `d`:
every entry gains the already updated entry `d` places before it. -/
theorem ways_sweep (n d : Nat) (hd : 0 < d) (w : List Nat) (hw : w.length = n + 1) :
    ((List.range' 1 n).foldl (fun ways val =>
        if val ≥ d then ways.set val (ways.getD val 0 + ways.getD (val - d) 0) else ways)
        w).length = n + 1 ∧
    ∀ v, v ≤ n →
      ((List.range' 1 n).foldl (fun ways val =>
        if val ≥ d then ways.set val (ways.getD val 0 + ways.getD (val - d) 0) else ways)
        w).getD v 0 =
      w.getD v 0 + (if d ≤ v then
        ((List.range' 1 n).foldl (fun ways val =>
          if val ≥ d then ways.set val (ways.getD val 0 + ways.getD (val - d) 0) else ways)
          w).getD (v - d) 0 else 0) := by
  have h := foldl_range'_inv (fun (ways : List Nat) val =>
        if val ≥ d then ways.set val (ways.getD val 0 + ways.getD (val - d) 0) else ways)
    (fun k row => row.length = n + 1 ∧ (∀ v, k ≤ v → row.getD v 0 = w.getD v 0) ∧
      ∀ v, v < k → row.getD v 0 = w.getD v 0 + (if d ≤ v then row.getD (v - d) 0 else 0))
    n 1 w ⟨hw, fun _ _ => rfl, fun v hv => by
      have hv0 : ¬ d ≤ v := by omega
      rw [if_neg hv0]; rfl⟩
    (by
      intro k st hk1 hk2 ⟨h1, h2, h3⟩
      dsimp only
      by_cases hkd : k ≥ d
      · simp only [if_pos hkd]
        refine ⟨by simp [h1], fun v hv => ?_, fun v hv => ?_⟩
        · rw [getD_set_ne _ _ _ _ _ (by omega)]; exact h2 v (by omega)
        · have hne : k ≠ v - d := by omega
          by_cases e : k = v
          · subst e
            rw [getD_set_eq _ _ _ _ (by omega), if_pos hkd, getD_set_ne _ _ _ _ _ hne,
              h2 k le_rfl]
          · rw [getD_set_ne _ _ _ _ _ e, getD_set_ne _ _ _ _ _ hne]
            exact h3 v (by omega)
      · simp only [if_neg hkd]
        refine ⟨h1, fun v hv => h2 v (by omega), fun v hv => ?_⟩
        by_cases e : k = v
        · subst e
          have : ¬ d ≤ k := hkd
          rw [if_neg this, h2 k le_rfl]; rfl
        · exact h3 v (by omega))
  exact ⟨h.1, fun v hv => h.2.2 v (by omega)⟩

/-- Processing one more denomination keeps the counting invariant. -/
theorem countOk_snoc (n d : Nat) (pre : List Nat) (hd : 0 < d) (hnd : d ∉ pre)
    (w : List Nat) (h : CountOk n pre w) :
    CountOk n (pre ++ [d]) ((List.range' 1 n).foldl (fun ways val =>
        if val ≥ d then ways.set val (ways.getD val 0 + ways.getD (val - d) 0) else ways)
        w) := by
  obtain ⟨hlen, hsw⟩ := ways_sweep n d hd w h.1
  refine ⟨hlen, fun v => ?_⟩
  induction v using Nat.strong_induction_on with
  | _ v ih =>
    intro hv
    rw [hsw v hv, encard_changeMultisets_snoc v d pre hnd, Nat.cast_add, h.2 v hv]
    congr 1
    by_cases hdv : d ≤ v
    · rw [if_pos hdv, if_pos hdv]
      exact ih (v - d) (by omega) (by omega)
    · rw [if_neg hdv, if_neg hdv]; rfl

/-- The outer loop of `NumberOfWaysToMakeChangeDP` keeps the counting invariant. -/
theorem countOk_foldl (n : Nat) : ∀ (ds pre : List Nat) (w : List Nat),
    (pre ++ ds).Nodup → (∀ d ∈ ds, 0 < d) → CountOk n pre w →
    CountOk n (pre ++ ds) (ds.foldl (fun ways d =>
      (List.range' 1 n).foldl (fun ways val =>
        if val ≥ d then ways.set val (ways.getD val 0 + ways.getD (val - d) 0) else ways)
        ways) w) := by
  intro ds
  induction ds with
  | nil => intro pre w _ _ h; simpa using h
  | cons d ds ih =>
    intro pre w hnd hpos h
    have e : pre ++ d :: ds = (pre ++ [d]) ++ ds := by simp
    rw [List.foldl_cons, e]
    apply ih
    · rw [← e]; exact hnd
    · exact fun x hx => hpos x (List.mem_cons_of_mem _ hx)
    · apply countOk_snoc n d pre (hpos d (List.mem_cons_self _ _)) _ w h
      intro hmem
      have := List.nodup_append.1 hnd
      exact this.2.2 hmem (List.mem_cons_self _ _)

theorem countOk_init (n : Nat) : CountOk n [] ((List.replicate (n + 1) 0).set 0 1) := by
  refine ⟨by simp, fun v hv => ?_⟩
  rw [changeMultisets_nil]
  by_cases e : v = 0
  · subst e
    rw [getD_set_eq _ _ _ _ (by simp)]
    simp
  · rw [getD_set_ne _ _ _ _ _ (Ne.symm e), if_neg e]
    have hv2 : v < n + 1 := by omega
    simp [List.getD_eq_getElem?_getD, List.getElem?_replicate, hv2]

/-- For duplicate-free positive denominations the tabulated count is the number of
multisets of coins that sum to `n`. -/
theorem ways_encard (n : Nat) (denoms : List Nat) (hnd : denoms.Nodup)
    (hpos : ∀ d ∈ denoms, 0 < d) :
    (changeMultisets n denoms).encard = (NumberOfWaysToMakeChangeDP n denoms : ENat) := by
  have h := countOk_foldl n denoms [] _ (by simpa using hnd) hpos (countOk_init n)
  have h2 := h.2 n le_rfl
  rw [List.nil_append] at h2
  exact h2.symm

theorem rowLe_refl (w : List Nat) : RowLe w w := ⟨rfl, fun _ => le_rfl⟩

theorem rowLe_trans {w1 w2 w3 : List Nat} (h1 : RowLe w1 w2) (h2 : RowLe w2 w3) :
    RowLe w1 w3 :=
  ⟨h1.1.trans h2.1, fun v => (h1.2 v).trans (h2.2 v)⟩

/-- One update `ways[val] += ways[val-d]` is monotone in the slice. -/
theorem waysStep_mono (d k : Nat) {w w2 : List Nat} (h : RowLe w w2) :
    RowLe (if k ≥ d then w.set k (w.getD k 0 + w.getD (k - d) 0) else w)
      (if k ≥ d then w2.set k (w2.getD k 0 + w2.getD (k - d) 0) else w2) := by
  by_cases hk : k ≥ d
  · rw [if_pos hk, if_pos hk]
    refine ⟨by simp [h.1], fun v => ?_⟩
    rw [getD_set, getD_set, h.1]
    have a1 := h.2 k
    have a2 := h.2 (k - d)
    have a3 := h.2 v
    split_ifs <;> omega
  · rw [if_neg hk, if_neg hk]; exact h

/-- One update `ways[val] += ways[val-d]` never lowers an entry. -/
theorem waysStep_infl (d k : Nat) (w : List Nat) :
    RowLe w (if k ≥ d then w.set k (w.getD k 0 + w.getD (k - d) 0) else w) := by
  by_cases hk : k ≥ d
  · rw [if_pos hk]
    refine ⟨by simp, fun v => ?_⟩
    rw [getD_set]
    split_ifs with e
    · rw [← e.1]; omega
    · exact le_rfl
  · rw [if_neg hk]; exact rowLe_refl w

theorem waysSweep_mono (d : Nat) : ∀ (l : List Nat) {w w2 : List Nat}, RowLe w w2 →
    RowLe (l.foldl (fun ways val =>
        if val ≥ d then ways.set val (ways.getD val 0 + ways.getD (val - d) 0) else ways) w)
      (l.foldl (fun ways val =>
        if val ≥ d then ways.set val (ways.getD val 0 + ways.getD (val - d) 0) else ways) w2) := by
  intro l
  induction l with
  | nil => intro w w2 h; exact h
  | cons k l ih => intro w w2 h; exact ih (waysStep_mono d k h)

theorem waysSweep_infl (d : Nat) : ∀ (l : List Nat) (w : List Nat),
    RowLe w (l.foldl (fun ways val =>
        if val ≥ d then ways.set val (ways.getD val 0 + ways.getD (val - d) 0) else ways) w) := by
  intro l
  induction l with
  | nil => intro w; exact rowLe_refl w
  | cons k l ih => intro w; exact rowLe_trans (waysStep_infl d k w) (ih _)

/-- Dropping denominations from the input list can only lower the table. -/
theorem ways_sublist (n : Nat) {l1 l2 : List Nat} (h : l1.Sublist l2) :
    ∀ {w w2 : List Nat}, RowLe w w2 →
    RowLe (l1.foldl (fun ways d =>
        (List.range' 1 n).foldl (fun ways val =>
          if val ≥ d then ways.set val (ways.getD val 0 + ways.getD (val - d) 0) else ways)
          ways) w)
      (l2.foldl (fun ways d =>
        (List.range' 1 n).foldl (fun ways val =>
          if val ≥ d then ways.set val (ways.getD val 0 + ways.getD (val - d) 0) else ways)
          ways) w2) := by
  induction h with
  | slnil => intro w w2 hw; exact hw
  | cons a _ ih =>
    intro w w2 hw
    rw [List.foldl_cons]
    exact ih (rowLe_trans hw (waysSweep_infl a _ w2))
  | cons₂ a _ ih =>
    intro w w2 hw
    rw [List.foldl_cons, List.foldl_cons]
    exact ih (waysSweep_mono a _ hw)

theorem ways_sublist_le (n : Nat) {l1 l2 : List Nat} (h : l1.Sublist l2) :
    NumberOfWaysToMakeChangeDP n l1 ≤ NumberOfWaysToMakeChangeDP n l2 :=
  (ways_sublist n h (rowLe_refl _)).2 n

end MakeChangeCode

/-! ## The table of dp/minMakeChange.go -/

section MinMakeChangeCode

open Spec MinMakeChange

theorem min2_eq (x y : Int) : MinMakeChange.min [x, y] = Min.min x y := by
  simp only [MinMakeChange.min, List.foldl_cons, List.foldl_nil, List.headD_cons]
  split_ifs <;> omega

/-- The inner loop of `MinNumberOfCoinsForChangeDP` for a positive denomination `d`. -/
theorem totals_sweep (n d : Nat) (hd : 0 < d) (t : List Int) (ht : t.length = n + 1) :
    ((List.range' 0 t.length).foldl (fun totals v =>
        if v ≥ d then totals.set v (MinMakeChange.min [totals.getD (v - d) 0 + 1, totals.getD v 0])
        else totals) t).length = n + 1 ∧
    ∀ v, v ≤ n →
      ((List.range' 0 t.length).foldl (fun totals v =>
        if v ≥ d then totals.set v (MinMakeChange.min [totals.getD (v - d) 0 + 1, totals.getD v 0])
        else totals) t).getD v 0 =
      if d ≤ v then
        Min.min (((List.range' 0 t.length).foldl (fun totals v =>
          if v ≥ d then
            totals.set v (MinMakeChange.min [totals.getD (v - d) 0 + 1, totals.getD v 0])
          else totals) t).getD (v - d) 0 + 1) (t.getD v 0)
      else t.getD v 0 := by
  rw [ht]
  have h := foldl_range'_inv (fun (totals : List Int) v =>
        if v ≥ d then totals.set v (MinMakeChange.min [totals.getD (v - d) 0 + 1, totals.getD v 0])
        else totals)
    (fun k row => row.length = n + 1 ∧ (∀ v, k ≤ v → row.getD v 0 = t.getD v 0) ∧
      ∀ v, v < k → row.getD v 0 =
        if d ≤ v then Min.min (row.getD (v - d) 0 + 1) (t.getD v 0) else t.getD v 0)
    (n + 1) 0 t ⟨ht, fun _ _ => rfl, fun v hv => by omega⟩
    (by
      intro k st hk1 hk2 ⟨h1, h2, h3⟩
      dsimp only
      by_cases hkd : k ≥ d
      · simp only [if_pos hkd]
        refine ⟨by simp [h1], fun v hv => ?_, fun v hv => ?_⟩
        · rw [getD_set_ne _ _ _ _ _ (by omega)]; exact h2 v (by omega)
        · have hne : k ≠ v - d := by omega
          by_cases e : k = v
          · subst e
            rw [getD_set_eq _ _ _ _ (by omega), if_pos hkd, getD_set_ne _ _ _ _ _ hne,
              h2 k le_rfl, min2_eq]
          · rw [getD_set_ne _ _ _ _ _ e, getD_set_ne _ _ _ _ _ hne]
            exact h3 v (by omega)
      · simp only [if_neg hkd]
        refine ⟨h1, fun v hv => h2 v (by omega), fun v hv => ?_⟩
        by_cases e : k = v
        · subst e
          have : ¬ d ≤ k := hkd
          rw [if_neg this, h2 k le_rfl]
        · exact h3 v (by omega))
  exact ⟨h.1, fun v hv => h.2.2 v (by omega)⟩

/-- Processing one more denomination keeps the invariant of `totals`. -/
theorem minOk_snoc (n d : Nat) (pre : List Nat) (hd : 0 < d) (t : List Int)
    (h : MinOk n pre t) :
    MinOk n (pre ++ [d]) ((List.range' 0 t.length).foldl (fun totals v =>
        if v ≥ d then totals.set v (MinMakeChange.min [totals.getD (v - d) 0 + 1, totals.getD v 0])
        else totals) t) := by
  obtain ⟨hlen, hsw⟩ := totals_sweep n d hd t h.1
  have hsub : ∀ c ∈ pre, c ∈ pre ++ [d] := fun c hc => List.mem_append_left _ hc
  have hdm : d ∈ pre ++ [d] := by simp
  refine ⟨hlen, fun v => ?_⟩
  induction v using Nat.strong_induction_on with
  | _ v ih =>
    intro hv
    have hx := hsw v hv
    obtain ⟨hc, hs⟩ := h.2 v hv
    constructor
    · intro m hm
      by_cases hdmem : d ∈ m
      · obtain ⟨hdv, hm2, hm3⟩ := changeMultisets_erase hm hdmem
        have i1 := (ih (v - d) (by omega) (by omega)).1 _ hm2
        have hcard : Multiset.card m = Multiset.card (m.erase d) + 1 := by
          rw [← hm3, Multiset.card_cons, hm3]
        rw [hx, if_pos hdv, hcard]
        push_cast
        have := min_le_left
          (((List.range' 0 t.length).foldl (fun totals v =>
            if v ≥ d then
              totals.set v (MinMakeChange.min [totals.getD (v - d) 0 + 1, totals.getD v 0])
            else totals) t).getD (v - d) 0 + 1) (t.getD v 0)
        omega
      · have i2 := hc m (changeMultisets_not_mem hm hdmem)
        rw [hx]
        split_ifs
        · exact (min_le_right _ _).trans i2
        · exact i2
    · intro hle
      rw [hx] at hle ⊢
      by_cases hdv : d ≤ v
      · rw [if_pos hdv] at hle ⊢
        rcases min_choice
          (((List.range' 0 t.length).foldl (fun totals v =>
            if v ≥ d then
              totals.set v (MinMakeChange.min [totals.getD (v - d) 0 + 1, totals.getD v 0])
            else totals) t).getD (v - d) 0 + 1) (t.getD v 0) with e | e
        · rw [e] at hle ⊢
          obtain ⟨m2, hm2, hcard⟩ := (ih (v - d) (by omega) (by omega)).2 (by omega)
          refine ⟨d ::ₘ m2, changeMultisets_cons hdm hdv hm2, ?_⟩
          rw [Multiset.card_cons]
          push_cast
          omega
        · rw [e] at hle ⊢
          obtain ⟨m, hm, hcard⟩ := hs hle
          exact ⟨m, changeMultisets_mono v hsub hm, hcard⟩
      · rw [if_neg hdv] at hle ⊢
        obtain ⟨m, hm, hcard⟩ := hs hle
        exact ⟨m, changeMultisets_mono v hsub hm, hcard⟩

/-- The outer loop of `MinNumberOfCoinsForChangeDP` keeps the invariant of `totals`. -/
theorem minOk_foldl (n : Nat) : ∀ (ds pre : List Nat) (t : List Int),
    (∀ d ∈ ds, 0 < d) → MinOk n pre t →
    MinOk n (pre ++ ds) (ds.foldl (fun totals d =>
      (List.range' 0 totals.length).foldl (fun totals v =>
        if v ≥ d then totals.set v (MinMakeChange.min [totals.getD (v - d) 0 + 1, totals.getD v 0])
        else totals) totals) t) := by
  intro ds
  induction ds with
  | nil => intro pre t _ h; simpa using h
  | cons d ds ih =>
    intro pre t hpos h
    have e : pre ++ d :: ds = (pre ++ [d]) ++ ds := by simp
    rw [List.foldl_cons, e]
    apply ih
    · exact fun x hx => hpos x (List.mem_cons_of_mem _ hx)
    · exact minOk_snoc n d pre (hpos d (List.mem_cons_self _ _)) t h

/-- The initialisation of `totals`: 0 at index 0 and the sentinel `n + 1` elsewhere. -/
theorem minOk_init (n : Nat) :
    MinOk n [] ((List.range' 1 (((List.replicate (n + 1) (0 : Int)).set 0 0).length - 1)).foldl
      (fun totals i => totals.set i ((n : Int) + 1)) ((List.replicate (n + 1) (0 : Int)).set 0 0)) := by
  have e : ((List.replicate (n + 1) (0 : Int)).set 0 0).length - 1 = n := by simp
  rw [e]
  have h := foldl_range'_inv (fun (totals : List Int) i => totals.set i ((n : Int) + 1))
    (fun k row => row.length = n + 1 ∧ row.getD 0 0 = 0 ∧
      ∀ v, 1 ≤ v → v < k → row.getD v 0 = (n : Int) + 1)
    n 1 ((List.replicate (n + 1) (0 : Int)).set 0 0)
    ⟨by simp, by rw [getD_set_eq _ _ _ _ (by simp)], fun v h1 h2 => by omega⟩
    (by
      intro k st hk1 hk2 ⟨h1, h2, h3⟩
      refine ⟨by simp [h1], ?_, fun v hv1 hv2 => ?_⟩
      · rw [getD_set_ne _ _ _ _ _ (by omega)]; exact h2
      · by_cases e2 : k = v
        · subst e2; rw [getD_set_eq _ _ _ _ (by omega)]
        · rw [getD_set_ne _ _ _ _ _ e2]; exact h3 v hv1 (by omega))
  obtain ⟨h1, h2, h3⟩ := h
  refine ⟨h1, fun v hv => ?_⟩
  rw [changeMultisets_nil]
  by_cases e0 : v = 0
  · subst e0
    rw [h2, if_pos rfl]
    refine ⟨fun m _ => by positivity, fun _ => ⟨0, by simp, by simp⟩⟩
  · rw [if_neg e0, h3 v (by omega) (by omega)]
    refine ⟨fun m hm => absurd hm (by simp), fun hle => by omega⟩

/-- The table of `MinNumberOfCoinsForChangeDP` after all denominations. -/
theorem minDP_spec (n : Nat) (denoms : List Nat) (hpos : ∀ d ∈ denoms, 0 < d) :
    (changeMultisets n denoms = ∅ → MinNumberOfCoinsForChangeDP n denoms = -1) ∧
    ((changeMultisets n denoms).Nonempty →
      IsLeast {k : Int | ∃ m ∈ changeMultisets n denoms, (Multiset.card m : Int) = k}
        (MinNumberOfCoinsForChangeDP n denoms)) := by
  have h := minOk_foldl n denoms [] _ hpos (minOk_init n)
  rw [List.nil_append] at h
  obtain ⟨hc, hs⟩ := h.2 n le_rfl
  constructor
  · intro hempty
    unfold MinNumberOfCoinsForChangeDP
    dsimp only
    rw [if_pos]
    by_contra hle
    obtain ⟨m, hm, _⟩ := hs (by omega)
    rw [hempty] at hm
    exact hm
  · rintro ⟨m, hm⟩
    have hcard := card_le_of_mem_changeMultisets hpos hm
    have hle := hc m hm
    have e : MinNumberOfCoinsForChangeDP n denoms = _ := if_neg (by omega)
    rw [e]
    refine ⟨?_, ?_⟩
    · obtain ⟨m2, hm2, hcard2⟩ := hs (by omega)
      exact ⟨m2, hm2, hcard2⟩
    · rintro k ⟨m2, hm2, rfl⟩
      exact hc m2 hm2

end MinMakeChangeCode

/-! ## Consequences of the table of dp/minMakeChange.go -/

section MinMakeChangeMore

open Spec MinMakeChange

/-- A result other than -1 is the size of a multiset of coins for the amount. -/
theorem minDP_reachable (n : Nat) (denoms : List Nat) (hpos : ∀ d ∈ denoms, 0 < d)
    (h : MinNumberOfCoinsForChangeDP n denoms ≠ -1) :
    ∃ m ∈ changeMultisets n denoms,
      (Multiset.card m : Int) = MinNumberOfCoinsForChangeDP n denoms := by
  obtain ⟨h1, h2⟩ := minDP_spec n denoms hpos
  rcases Set.eq_empty_or_nonempty (changeMultisets n denoms) with he | hne
  · exact absurd (h1 he) h
  · exact (h2 hne).1

/-- A multiset of coins for the amount bounds the result, which is then not -1. -/
theorem minDP_le_card (n : Nat) (denoms : List Nat) (hpos : ∀ d ∈ denoms, 0 < d)
    {m : Multiset Nat} (hm : m ∈ changeMultisets n denoms) :
    MinNumberOfCoinsForChangeDP n denoms ≠ -1 ∧
    MinNumberOfCoinsForChangeDP n denoms ≤ (Multiset.card m : Int) := by
  obtain ⟨_, h2⟩ := minDP_spec n denoms hpos
  have hl := h2 ⟨m, hm⟩
  obtain ⟨m2, _, hc⟩ := hl.1
  refine ⟨?_, hl.2 ⟨m, hm, rfl⟩⟩
  have : (0 : Int) ≤ (Multiset.card m2 : Int) := by positivity
  omega

/-- Amount 1 is reachable with positive denominations only by the coin 1. -/
theorem one_mem_of_changeMultisets_one {denoms : List Nat} (hpos : ∀ d ∈ denoms, 0 < d)
    {m : Multiset Nat} (hm : m ∈ changeMultisets 1 denoms) :
    1 ∈ denoms ∧ Multiset.card m = 1 := by
  have hc := card_le_of_mem_changeMultisets hpos hm
  obtain ⟨h1, h2⟩ := hm
  have hne : m ≠ 0 := by
    rintro rfl
    simp at h2
  obtain ⟨c, hcm⟩ := Multiset.exists_mem_of_ne_zero hne
  have hle := Multiset.le_sum_of_mem hcm
  have hcpos := hpos c (h1 c hcm)
  have hc1 : c = 1 := by omega
  subst hc1
  refine ⟨h1 1 hcm, ?_⟩
  have : 0 < Multiset.card m := Multiset.card_pos.2 hne
  omega

theorem minDP_succ_le (n : Nat) (denoms : List Nat) (hpos : ∀ d ∈ denoms, 0 < d)
    (hn : MinNumberOfCoinsForChangeDP n denoms ≠ -1)
    (h1 : MinNumberOfCoinsForChangeDP 1 denoms ≠ -1) :
    MinNumberOfCoinsForChangeDP (n + 1) denoms ≠ -1 ∧
    MinNumberOfCoinsForChangeDP (n + 1) denoms ≤
      MinNumberOfCoinsForChangeDP n denoms + MinNumberOfCoinsForChangeDP 1 denoms := by
  obtain ⟨m1, hm1, hc1⟩ := minDP_reachable 1 denoms hpos h1
  obtain ⟨mn, hmn, hcn⟩ := minDP_reachable n denoms hpos hn
  obtain ⟨hmem, hcard1⟩ := one_mem_of_changeMultisets_one hpos hm1
  have hcons : 1 ::ₘ mn ∈ changeMultisets (n + 1) denoms :=
    changeMultisets_cons hmem (by omega) (by simpa using hmn)
  obtain ⟨hne, hle⟩ := minDP_le_card (n + 1) denoms hpos hcons
  refine ⟨hne, ?_⟩
  rw [Multiset.card_cons] at hle
  push_cast at hle
  rw [← hcn, ← hc1, hcard1]
  push_cast
  omega

end MinMakeChangeMore

/-! ## The loops of arrays/validateSubsequence.go -/

section ValidateSubsequenceCode

open ValidateSubsequence

theorem cons_sublist_cons_of_ne {x y : Int} (h : x ≠ y) (ys xs : List Int) :
    (y :: ys).Sublist (x :: xs) ↔ (y :: ys).Sublist xs := by
  rw [List.sublist_cons_iff]
  constructor
  · rintro (h1 | ⟨r, h2, _⟩)
    · exact h1
    · exact absurd (List.cons.inj h2).1.symm h
  · exact Or.inl

/-- The range loop stops with `sIndex = len(sequence)` exactly when the part of
`sequence` from `sIndex` on is a subsequence of the elements still to be visited. -/
theorem rangeLoop_spec (sequence : List Int) : ∀ (rest : List Int) (s : Nat),
    s ≤ sequence.length →
    ∃ r, rangeLoop sequence rest s = some r ∧
      (sequence.length = r ↔ (sequence.drop s).Sublist rest) := by
  intro rest
  induction rest with
  | nil =>
    intro s hs
    refine ⟨s, rfl, ?_⟩
    rw [List.sublist_nil, List.drop_eq_nil_iff]
    omega
  | cons value rest ih =>
    intro s hs
    unfold rangeLoop
    by_cases e : s = sequence.length
    · rw [if_pos e]
      refine ⟨s, rfl, ?_⟩
      subst e
      simp
    · rw [if_neg e]
      have hlt : s < sequence.length := by omega
      rw [List.getElem?_eq_getElem hlt]
      have hd : sequence.drop s = sequence[s] :: sequence.drop (s + 1) :=
        List.drop_eq_getElem_cons hlt
      by_cases hv : value = sequence[s]
      · simp only [if_pos hv]
        obtain ⟨r, hr, hiff⟩ := ih (s + 1) (by omega)
        refine ⟨r, hr, ?_⟩
        rw [hiff, hd, hv, List.cons_sublist_cons]
      · simp only [if_neg hv]
        obtain ⟨r, hr, hiff⟩ := ih s hs
        refine ⟨r, hr, ?_⟩
        rw [hiff, hd, cons_sublist_cons_of_ne hv]

/-- The index loop of `IsValidSubsequence1` computes what the range loop computes on the
elements from `aIndex` on. -/
theorem loop1_eq_rangeLoop (array sequence : List Int) : ∀ (fuel aIndex sIndex : Nat),
    array.length - aIndex < fuel → sIndex ≤ sequence.length →
    loop1 array sequence fuel aIndex sIndex =
      rangeLoop sequence (array.drop aIndex) sIndex := by
  intro fuel
  induction fuel with
  | zero => intro aIndex sIndex h; omega
  | succ fuel ih =>
    intro aIndex sIndex hf hs
    unfold loop1
    by_cases ha : aIndex < array.length
    · have hd : array.drop aIndex = array[aIndex] :: array.drop (aIndex + 1) :=
        List.drop_eq_getElem_cons ha
      rw [hd]
      unfold rangeLoop
      by_cases hlt : sIndex < sequence.length
      · rw [if_pos ⟨ha, hlt⟩, if_neg (by omega), List.getElem?_eq_getElem ha,
          List.getElem?_eq_getElem hlt]
        dsimp only
        by_cases hv : array[aIndex] = sequence[sIndex]
        · rw [if_pos hv, if_pos hv]
          exact ih (aIndex + 1) (sIndex + 1) (by omega) (by omega)
        · rw [if_neg hv, if_neg hv]
          exact ih (aIndex + 1) sIndex (by omega) hs
      · rw [if_neg (fun h => hlt h.2), if_pos (by omega)]
    · rw [if_neg (fun h => ha h.1), List.drop_eq_nil_of_le (by omega)]
      rfl

theorem isValidSubsequence_eq (array sequence : List Int) :
    IsValidSubsequence array sequence = some (decide (sequence.Sublist array)) := by
  obtain ⟨r, hr, hiff⟩ := rangeLoop_spec sequence array 0 (by omega)
  unfold IsValidSubsequence
  rw [hr]
  simp only [List.drop_zero] at hiff
  simp [hiff]

theorem isValidSubsequence1_eq (array sequence : List Int) (fuel : Nat)
    (hf : array.length < fuel) :
    IsValidSubsequence1 fuel array sequence = some (decide (sequence.Sublist array)) := by
  have h := loop1_eq_rangeLoop array sequence fuel 0 0 (by omega) (by omega)
  rw [List.drop_zero] at h
  obtain ⟨r, hr, hiff⟩ := rangeLoop_spec sequence array 0 (by omega)
  unfold IsValidSubsequence1
  rw [h, hr]
  simp only [List.drop_zero] at hiff
  simp [hiff]

end ValidateSubsequenceCode

/-! ## The searches of sorting/binarySearch.go and trees/binarySearch.go -/

section BinarySearchCode

open SortingBinarySearch

theorem index_natCast (s : List Int) (i : Nat) (h : i < s.length) :
    index s (i : Int) = some s[i] := by
  unfold index
  rw [if_neg (by omega), Int.toNat_natCast, List.getElem?_eq_getElem h]

theorem sorted_getElem_le {s : List Int} (hs : s.Sorted (· ≤ ·)) {i j : Nat} (hij : i ≤ j)
    (hi : i < s.length) (hj : j < s.length) : s[i] ≤ s[j] := by
  rcases Nat.eq_or_lt_of_le hij with e | e
  · subst e; exact le_rfl
  · exact (List.pairwise_iff_getElem.1 hs) i j hi hj e

/-- The recursive `Helper` goes through the same states as the loop of `BinarySearch`. -/
theorem Helper_eq_loop (array : List Int) (target : Int) : ∀ (fuel : Nat) (l r : Int),
    Helper array fuel l r target = loop array target fuel l r := by
  intro fuel
  induction fuel with
  | zero => intro l r; rfl
  | succ fuel ih =>
    intro l r
    rw [Helper, loop]
    by_cases h : l ≤ r
    · rw [if_pos h, if_neg (not_lt.2 h)]
      dsimp only
      cases index array ((l + r).tdiv 2) with
      | none => rfl
      | some x => simp only [ih]
    · rw [if_neg h, if_pos (not_le.1 h)]

/-- The loop of `BinarySearch` on a sorted array: while every occurrence of `target` lies
in `[l, r]`, the loop returns an index of `target`, or -1 when there is none. -/
theorem loop_spec (array : List Int) (target : Int) (hs : array.Sorted (· ≤ ·)) :
    ∀ (fuel : Nat) (l r : Int), 0 ≤ l → r < (array.length : Int) →
    (r - l + 1).toNat < fuel →
    (∀ (i : Nat) (hi : i < array.length), array[i] = target → l ≤ (i : Int) ∧ (i : Int) ≤ r) →
    ∃ v, loop array target fuel l r = Outcome.ret v ∧
      ((v = -1 ∧ target ∉ array) ∨
        ∃ (i : Nat) (hi : i < array.length), v = (i : Int) ∧ array[i] = target) := by
  intro fuel
  induction fuel with
  | zero => intro l r _ _ hf; omega
  | succ fuel ih =>
    intro l r hl hr hf hinv
    rw [loop]
    by_cases h : l ≤ r
    · rw [if_pos h]
      dsimp only
      have hm : (l + r).tdiv 2 = (l + r) / 2 := Int.tdiv_eq_ediv (by omega) (by omega)
      rw [hm]
      have hm0 : 0 ≤ (l + r) / 2 := by omega
      obtain ⟨m, hmm⟩ := Int.eq_ofNat_of_zero_le hm0
      rw [hmm]
      have hmlt : m < array.length := by omega
      rw [index_natCast array m hmlt]
      dsimp only
      by_cases e1 : array[m] = target
      · rw [if_pos e1]
        exact ⟨m, rfl, Or.inr ⟨m, hmlt, rfl, e1⟩⟩
      · rw [if_neg e1]
        by_cases e2 : array[m] > target
        · rw [if_pos e2]
          apply ih l ((m : Int) - 1) hl (by omega) (by omega)
          intro i hi hit
          refine ⟨(hinv i hi hit).1, ?_⟩
          by_contra hcon
          have hmi : m ≤ i := by omega
          have := sorted_getElem_le hs hmi hmlt hi
          omega
        · rw [if_neg e2]
          apply ih ((m : Int) + 1) r (by omega) hr (by omega)
          intro i hi hit
          refine ⟨?_, (hinv i hi hit).2⟩
          by_contra hcon
          have him : i ≤ m := by omega
          have := sorted_getElem_le hs him hi hmlt
          omega
    · rw [if_neg h]
      refine ⟨-1, rfl, Or.inl ⟨rfl, ?_⟩⟩
      intro hmem
      obtain ⟨i, hi, hit⟩ := List.mem_iff_getElem.1 hmem
      have := hinv i hi hit
      omega

/-- On a sorted array `BinarySearch` and `BinarySearch1` return the same value: -1 when
`target` does not occur, and otherwise an index in range that holds `target`. -/
theorem sortingBinarySearch_spec (array : List Int) (target : Int)
    (hs : array.Sorted (· ≤ ·)) (fuel : Nat) (hf : array.length < fuel) :
    ∃ v, BinarySearch fuel array target = Outcome.ret v ∧
      BinarySearch1 fuel array target = Outcome.ret v ∧
      (target ∉ array → v = -1) ∧
      (target ∈ array → 0 ≤ v ∧ v < (array.length : Int) ∧ index array v = some target) := by
  obtain ⟨v, hv, hcase⟩ := loop_spec array target hs fuel 0 ((array.length : Int) - 1)
    le_rfl (by omega) (by omega) (fun i hi _ => by omega)
  refine ⟨v, hv, ?_, ?_, ?_⟩
  · unfold BinarySearch1
    rw [Helper_eq_loop]
    exact hv
  · intro hnot
    rcases hcase with ⟨h1, _⟩ | ⟨i, hi, _, hit⟩
    · exact h1
    · exact absurd (List.mem_iff_getElem.2 ⟨i, hi, hit⟩) hnot
  · intro hmem
    rcases hcase with ⟨_, h2⟩ | ⟨i, hi, hvi, hit⟩
    · exact absurd hmem h2
    · subst hvi
      refine ⟨by omega, by omega, ?_⟩
      rw [index_natCast array i hi, hit]

end BinarySearchCode

/-! ## The loops of recursion/fibonacci.go -/

section FibonacciCode

open Spec Fibonacci

theorem fib_add_three (k : Nat) : fib (k + 3) = fib (k + 2) + fib (k + 1) := rfl

/-- The loop of `GetNthFibIter`: with `m` rounds to go and two consecutive Fibonacci
numbers in `first` and `second`, it ends with the one `m` places further. -/
theorem iterLoop_spec : ∀ (fuel m j : Nat), 1 ≤ j → m < fuel →
    iterLoop fuel ((m : Int) + 2) (fib j) (fib (j + 1)) = some (fib (j + 1 + m)) := by
  intro fuel
  induction fuel with
  | zero => intro m j _ h; omega
  | succ fuel ih =>
    intro m j hj hf
    rw [iterLoop]
    cases m with
    | zero =>
      rw [if_neg (by simp)]
    | succ m =>
      rw [if_pos (by push_cast; omega)]
      obtain ⟨j2, rfl⟩ : ∃ j2, j = j2 + 1 := ⟨j - 1, by omega⟩
      have e1 : ((m + 1 : Nat) : Int) + 2 - 1 = (m : Int) + 2 := by push_cast; omega
      have e2 : fib (j2 + 1) + fib (j2 + 1 + 1) = fib (j2 + 1 + 1 + 1) := by
        rw [fib_add_three, add_comm]
      rw [e1, e2, ih m (j2 + 1 + 1) (by omega) (by omega)]
      congr 2
      omega

theorem getNthFibIter_eq (n fuel : Nat) (hn : 1 ≤ n) (hf : n ≤ fuel) :
    GetNthFibIter fuel (n : Int) = some (fib n) := by
  unfold GetNthFibIter
  by_cases h1 : n = 1
  · subst h1; rfl
  · by_cases h2 : n = 2
    · subst h2; rfl
    · rw [if_neg (by omega), if_neg (by omega)]
      obtain ⟨m, rfl⟩ : ∃ m, n = m + 3 := ⟨n - 3, by omega⟩
      have e : ((m + 3 : Nat) : Int) = ((m + 1 : Nat) : Int) + 2 := by push_cast; omega
      rw [e]
      have := iterLoop_spec fuel (m + 1) 1 le_rfl (by omega)
      rw [show fib 1 = 0 from rfl, show fib (1 + 1) = 1 from rfl] at this
      rw [this]
      congr 2
      omega

theorem lookup_cons_self (k v : Int) (mem : List (Int × Int)) :
    List.lookup k ((k, v) :: mem) = some v := by
  simp [List.lookup]

theorem lookup_cons_ne {k k2 : Int} (h : k2 ≠ k) (v : Int) (mem : List (Int × Int)) :
    List.lookup k2 ((k, v) :: mem) = List.lookup k2 mem := by
  have hb : (k2 == k) = false := by simp [h]
  simp only [List.lookup, hb]

/-- The memoised `helper` returns the Fibonacci number and keeps the map correct. -/
theorem helper_spec : ∀ (fuel n : Nat) (mem : List (Int × Int)), 1 ≤ n → n ≤ fuel →
    MemOk mem →
    ∃ mem2, helper fuel (n : Int) mem = some (fib n, mem2) ∧ MemOk mem2 := by
  intro fuel
  induction fuel with
  | zero => intro n mem h1 h2; omega
  | succ fuel ih =>
    intro n mem hn hf hmem
    rw [helper]
    cases hl : List.lookup (n : Int) mem with
    | some val =>
      obtain ⟨j, _, hj, hv⟩ := hmem.2.2 _ _ hl
      have : n = j := by exact_mod_cast hj
      subst this
      exact ⟨mem, by rw [hv], hmem⟩
    | none =>
      have h1 : n ≠ 1 := by
        rintro rfl
        rw [show ((1 : Nat) : Int) = 1 from rfl, hmem.1] at hl
        exact absurd hl (by simp)
      have h2 : n ≠ 2 := by
        rintro rfl
        rw [show ((2 : Nat) : Int) = 2 from rfl, hmem.2.1] at hl
        exact absurd hl (by simp)
      obtain ⟨k, rfl⟩ : ∃ k, n = k + 3 := ⟨n - 3, by omega⟩
      have e1 : ((k + 3 : Nat) : Int) - 1 = ((k + 2 : Nat) : Int) := by push_cast; omega
      have e2 : ((k + 3 : Nat) : Int) - 2 = ((k + 1 : Nat) : Int) := by push_cast; omega
      obtain ⟨mem1, hr1, hm1⟩ := ih (k + 2) mem (by omega) (by omega) hmem
      obtain ⟨mem2, hr2, hm2⟩ := ih (k + 1) mem1 (by omega) (by omega) hm1
      dsimp only
      rw [e1, hr1]
      dsimp only
      rw [e2, hr2]
      dsimp only
      rw [lookup_cons_self]
      refine ⟨_, rfl, ?_, ?_, ?_⟩
      · rw [lookup_cons_ne (by push_cast; omega)]; exact hm2.1
      · rw [lookup_cons_ne (by push_cast; omega)]; exact hm2.2.1
      · intro key v hkv
        by_cases hk : key = ((k + 3 : Nat) : Int)
        · subst hk
          rw [lookup_cons_self] at hkv
          refine ⟨k + 3, by omega, rfl, ?_⟩
          rw [fib_add_three]
          exact (Option.some.inj hkv).symm
        · rw [lookup_cons_ne hk] at hkv
          exact hm2.2.2 key v hkv

theorem memOk_init : MemOk [(1, 0), (2, 1)] := by
  refine ⟨by decide, by decide, ?_⟩
  intro k v h
  by_cases h1 : k = 1
  · subst h1
    rw [lookup_cons_self] at h
    exact ⟨1, le_rfl, rfl, (Option.some.inj h).symm⟩
  · rw [lookup_cons_ne h1] at h
    by_cases h2 : k = 2
    · subst h2
      rw [lookup_cons_self] at h
      exact ⟨2, by omega, rfl, (Option.some.inj h).symm⟩
    · rw [lookup_cons_ne h2] at h
      exact absurd h (by simp [List.lookup])

theorem getNthFibRecurMem_eq (n fuel : Nat) (hn : 1 ≤ n) (hf : n ≤ fuel) :
    GetNthFibRecurMem fuel (n : Int) = some (fib n) := by
  obtain ⟨mem2, hr, _⟩ := helper_spec fuel n _ hn hf memOk_init
  unfold GetNthFibRecurMem
  rw [hr]

end FibonacciCode

/-! ## The loops of sorting/bubbleSort.go -/

section BubbleSortCode

open Spec SortingBubbleSort

theorem swap_length (i j : Nat) (a : List Int) : (swap i j a).length = a.length := by
  simp [swap]

/-- Exchanging two neighbours gives a permutation. -/
theorem swap_adj_perm : ∀ (a : List Int) (i : Nat), i + 1 < a.length →
    (swap i (i + 1) a).Perm a := by
  intro a
  induction a with
  | nil => intro i h; simp at h
  | cons x t ih =>
    intro i h
    cases i with
    | zero =>
      cases t with
      | nil => simp at h
      | cons y r =>
        simp only [swap, List.getD_cons_succ, List.getD_cons_zero, List.set_cons_zero,
          List.set_cons_succ]
        exact List.Perm.swap x y r
    | succ i =>
      have h2 : i + 1 < t.length := by simpa using h
      have e : swap (i + 1) (i + 1 + 1) (x :: t) = x :: swap i (i + 1) t := by
        simp only [swap, List.getD_cons_succ, List.set_cons_succ]
      rw [e]
      exact (ih i h2).cons x

theorem swap_getD (a : List Int) (i j : Nat) (hi : i + 1 < a.length) :
    (swap i (i + 1) a).getD j 0 =
      if j = i then a.getD (i + 1) 0 else if j = i + 1 then a.getD i 0 else a.getD j 0 := by
  unfold swap
  rw [getD_set, getD_set, List.length_set]
  by_cases h1 : j = i
  · subst h1
    rw [if_neg (by omega), if_pos ⟨rfl, by omega⟩, if_pos rfl]
  · by_cases h2 : j = i + 1
    · subst h2
      rw [if_pos ⟨rfl, by omega⟩, if_neg h1, if_pos rfl]
    · rw [if_neg (fun h => h2 h.1.symm), if_neg (fun h => h1 h.1.symm), if_neg h1, if_neg h2]

/-- One pass of the inner loop moves the largest of the first `len - counter` values to
the end of that range, so one more index dominates everything before it. -/
theorem pass_spec (counter : Nat) (a0 : List Int) (flag : Bool)
    (hdom : Dom a0 (a0.length - counter)) :
    (pass counter a0 flag).1.length = a0.length ∧
    (pass counter a0 flag).1.Perm a0 ∧
    Dom (pass counter a0 flag).1 (a0.length - counter - 1) ∧
    (pass counter a0 flag).2 = (if a0.length - 1 - counter = 0 then flag else false) := by
  have h := foldl_range'_inv (fun (st : List Int × Bool) i =>
      ((if st.1.getD i 0 > st.1.getD (i + 1) 0 then swap i (i + 1) st.1 else st.1, false) :
        List Int × Bool))
    (fun i st => st.1.length = a0.length ∧ st.1.Perm a0 ∧
      (∀ j, i < j → st.1.getD j 0 = a0.getD j 0) ∧
      (∀ j, j ≤ i → st.1.getD j 0 ≤ st.1.getD i 0) ∧
      (∀ j, j ≤ i → ∃ j2, j2 ≤ i ∧ st.1.getD j 0 = a0.getD j2 0) ∧
      st.2 = (if i = 0 then flag else false))
    (a0.length - 1 - counter) 0 (a0, flag)
    ⟨rfl, List.Perm.refl _, fun _ _ => rfl, fun j hj => by
        have : j = 0 := by omega
        subst this; exact le_rfl,
      fun j hj => ⟨j, hj, rfl⟩, by simp⟩
    (by
      intro i st _ hi ⟨h1, h2, h3, h4, h5, _⟩
      have hlt : i + 1 < st.1.length := by omega
      dsimp only
      by_cases hgt : st.1.getD i 0 > st.1.getD (i + 1) 0
      · rw [if_pos hgt]
        have gi : (swap i (i + 1) st.1).getD i 0 = st.1.getD (i + 1) 0 := by
          rw [swap_getD _ _ _ hlt, if_pos rfl]
        have gi1 : (swap i (i + 1) st.1).getD (i + 1) 0 = st.1.getD i 0 := by
          rw [swap_getD _ _ _ hlt, if_neg (Nat.succ_ne_self i), if_pos rfl]
        have go : ∀ j, j ≠ i → j ≠ i + 1 →
            (swap i (i + 1) st.1).getD j 0 = st.1.getD j 0 := fun j n1 n2 => by
          rw [swap_getD _ _ _ hlt, if_neg n1, if_neg n2]
        refine ⟨by rw [swap_length, h1], (swap_adj_perm _ _ hlt).trans h2, ?_, ?_, ?_, by simp⟩
        · intro j hj
          rw [go j (by omega) (by omega)]
          exact h3 j (by omega)
        · intro j hj
          rw [gi1]
          by_cases e1 : j = i
          · subst e1; rw [gi]; omega
          · by_cases e2 : j = i + 1
            · subst e2; rw [gi1]
            · rw [go j e1 e2]; exact h4 j (by omega)
        · intro j hj
          by_cases e1 : j = i
          · subst e1; rw [gi]
            exact ⟨j + 1, le_rfl, h3 (j + 1) (by omega)⟩
          · by_cases e2 : j = i + 1
            · subst e2; rw [gi1]
              obtain ⟨j2, hj2, e⟩ := h5 i le_rfl
              exact ⟨j2, by omega, e⟩
            · rw [go j e1 e2]
              obtain ⟨j2, hj2, e⟩ := h5 j (by omega)
              exact ⟨j2, by omega, e⟩
      · rw [if_neg hgt]
        refine ⟨h1, h2, fun j hj => h3 j (by omega), ?_, ?_, by simp⟩
        · intro j hj
          by_cases e2 : j = i + 1
          · subst e2; exact le_rfl
          · have := h4 j (by omega)
            omega
        · intro j hj
          by_cases e2 : j = i + 1
          · subst e2
            exact ⟨i + 1, le_rfl, h3 (i + 1) (by omega)⟩
          · obtain ⟨j2, hj2, e⟩ := h5 j (by omega)
            exact ⟨j2, by omega, e⟩)
  rw [Nat.zero_add] at h
  obtain ⟨h1, h2, h3, h4, h5, h6⟩ := h
  refine ⟨h1, h2, ?_, h6⟩
  intro i j hij hj hk
  have hj' : j < a0.length := by
    have : (pass counter a0 flag).1.length = a0.length := h1
    omega
  by_cases e : j = a0.length - 1 - counter
  · have := h4 i (by omega)
    rw [e]
    exact this
  · have hjN : a0.length - 1 - counter < j := by omega
    have ej := h3 j hjN
    have hkj : a0.length - counter ≤ j := by omega
    by_cases hi : a0.length - 1 - counter < i
    · have ei := h3 i hi
      calc (pass counter a0 flag).1.getD i 0 = a0.getD i 0 := ei
        _ ≤ a0.getD j 0 := hdom i j hij hj' hkj
        _ = (pass counter a0 flag).1.getD j 0 := ej.symm
    · obtain ⟨j2, hj2, e2⟩ := h5 i (by omega)
      calc (pass counter a0 flag).1.getD i 0 = a0.getD j2 0 := e2
        _ ≤ a0.getD j 0 := hdom j2 j (by omega) hj' hkj
        _ = (pass counter a0 flag).1.getD j 0 := ej.symm

theorem sorted_of_dom_zero (a : List Int) (h : Dom a 0) : a.Sorted (· ≤ ·) := by
  apply List.pairwise_iff_getElem.2
  intro i j hi hj hij
  have := h i j (by omega) hj (by omega)
  rwa [List.getD_eq_getElem a 0 hi, List.getD_eq_getElem a 0 hj] at this

/-- The outer loop of `BubbleSort` returns a sorted permutation of the input. -/
theorem bubble_loop_spec (input : List Int) : ∀ (fuel : Nat) (array : List Int) (flag : Bool)
    (counter : Nat),
    (if flag = true then 1 else input.length - counter + 2) ≤ fuel →
    array.length = input.length → array.Perm input →
    Dom array (input.length - counter) → (flag = true → input.length - counter = 0) →
    ∃ out, loop fuel array flag counter = some out ∧ out.Perm input ∧ out.Sorted (· ≤ ·) := by
  intro fuel
  induction fuel with
  | zero =>
    intro array flag counter hf
    split_ifs at hf <;> omega
  | succ fuel ih =>
    intro array flag counter hf hlen hperm hdom hflag
    rw [loop]
    cases flag with
    | true =>
      rw [if_neg (by simp)]
      refine ⟨array, rfl, hperm, sorted_of_dom_zero array ?_⟩
      rw [hflag rfl] at hdom
      exact hdom
    | false =>
      rw [if_pos (by simp)]
      dsimp only
      rw [← hlen] at hdom
      obtain ⟨p1, p2, p3, p4⟩ := pass_spec counter array true hdom
      rw [hlen] at p3 p4
      simp only [Bool.false_eq_true, if_false] at hf
      apply ih
      · rw [p4]
        by_cases h0 : input.length - 1 - counter = 0
        · rw [if_pos h0, if_pos rfl]; omega
        · rw [if_neg h0, if_neg Bool.false_ne_true]; omega
      · rw [p1, hlen]
      · exact p2.trans hperm
      · have e : input.length - (counter + 1) = input.length - counter - 1 := by omega
        rw [e]; exact p3
      · intro h
        rw [p4] at h
        by_cases h0 : input.length - 1 - counter = 0
        · omega
        · rw [if_neg h0] at h
          exact absurd h (by simp)

theorem bubbleSort_spec (array : List Int) (fuel : Nat) (hf : array.length + 2 ≤ fuel) :
    ∃ out, BubbleSort fuel array = some out ∧ out.Perm array ∧ out.Sorted (· ≤ ·) := by
  apply bubble_loop_spec array fuel array false 0 (by simpa using hf) rfl (List.Perm.refl _)
  · intro i j _ hj hk
    omega
  · intro h; exact absurd h (by simp)

end BubbleSortCode

/-! ## The recursive count of dp/makeChange.go -/

section MakeChangeRec

open Spec MakeChange

theorem numberOfWays_eq_waysTable (n : Nat) (denoms : List Nat) :
    NumberOfWaysToMakeChangeDP n denoms = (waysTable n denoms).getD n 0 := rfl

theorem waysTable_snoc (n d : Nat) (ds : List Nat) :
    waysTable n (ds ++ [d]) =
      (List.range' 1 n).foldl (fun ways val =>
        if val ≥ d then ways.set val (ways.getD val 0 + ways.getD (val - d) 0) else ways)
        (waysTable n ds) := by
  simp [waysTable, List.foldl_append]

theorem waysTable_length (n : Nat) (ds : List Nat) (hpos : ∀ d ∈ ds, 0 < d) :
    (waysTable n ds).length = n + 1 := by
  induction ds using List.reverseRecOn with
  | nil => simp [waysTable]
  | append_singleton l d ih =>
    rw [waysTable_snoc]
    exact (ways_sweep n d (hpos d (by simp)) _
      (ih (fun x hx => hpos x (List.mem_append_left _ hx)))).1

/-- Entry `v` of the table after one more denomination `d`. -/
theorem waysTable_snoc_getD (n d v : Nat) (ds : List Nat) (hpos : ∀ x ∈ ds ++ [d], 0 < x)
    (hv : v ≤ n) :
    (waysTable n (ds ++ [d])).getD v 0 =
      (waysTable n ds).getD v 0 +
        (if d ≤ v then (waysTable n (ds ++ [d])).getD (v - d) 0 else 0) := by
  rw [waysTable_snoc]
  exact (ways_sweep n d (hpos d (by simp)) _
    (waysTable_length n ds (fun x hx => hpos x (List.mem_append_left _ hx)))).2 v hv

theorem waysTable_nil_getD (n v : Nat) (hv : v ≤ n) :
    (waysTable n []).getD v 0 = if v = 0 then 1 else 0 := by
  have hlen : v < n + 1 := by omega
  by_cases e : v = 0
  · subst e
    rw [if_pos rfl]
    exact getD_set_eq _ _ _ _ (by simp)
  · rw [if_neg e]
    show ((List.replicate (n + 1) 0).set 0 1).getD v 0 = 0
    rw [getD_set_ne _ _ _ _ _ (Ne.symm e)]
    simp [List.getD_eq_getElem?_getD, List.getElem?_replicate, hlen]

/-- An entry of the table does not depend on the size of the table. -/
theorem waysTable_stable (ds : List Nat) (hpos : ∀ d ∈ ds, 0 < d) :
    ∀ v n, v ≤ n → (waysTable n ds).getD v 0 = NumberOfWaysToMakeChangeDP v ds := by
  induction ds using List.reverseRecOn with
  | nil =>
    intro v n hv
    rw [numberOfWays_eq_waysTable, waysTable_nil_getD n v hv, waysTable_nil_getD v v le_rfl]
  | append_singleton l d ih =>
    have hl : ∀ x ∈ l, 0 < x := fun x hx => hpos x (List.mem_append_left _ hx)
    have hd : 0 < d := hpos d (by simp)
    intro v
    induction v using Nat.strong_induction_on with
    | _ v ihv =>
      intro n hv
      rw [numberOfWays_eq_waysTable, waysTable_snoc_getD n d v l hpos hv,
        waysTable_snoc_getD v d v l hpos le_rfl, ih hl v n hv, ih hl v v le_rfl]
      congr 1
      by_cases hdv : d ≤ v
      · rw [if_pos hdv, if_pos hdv, ihv (v - d) (by omega) n (by omega),
          ihv (v - d) (by omega) v (by omega)]
      · rw [if_neg hdv, if_neg hdv]

theorem numberOfWays_nil (v : Nat) :
    NumberOfWaysToMakeChangeDP v [] = if v = 0 then 1 else 0 := by
  rw [numberOfWays_eq_waysTable, waysTable_nil_getD v v le_rfl]

/-- Recurrence of the tabulated count in the last denomination. -/
theorem numberOfWays_snoc (ds : List Nat) (d v : Nat) (hpos : ∀ x ∈ ds ++ [d], 0 < x) :
    NumberOfWaysToMakeChangeDP v (ds ++ [d]) =
      NumberOfWaysToMakeChangeDP v ds +
        (if d ≤ v then NumberOfWaysToMakeChangeDP (v - d) (ds ++ [d]) else 0) := by
  have hl : ∀ x ∈ ds, 0 < x := fun x hx => hpos x (List.mem_append_left _ hx)
  rw [numberOfWays_eq_waysTable, waysTable_snoc_getD v d v ds hpos le_rfl,
    waysTable_stable ds hl v v le_rfl]
  congr 1
  by_cases hdv : d ≤ v
  · rw [if_pos hdv, if_pos hdv, waysTable_stable (ds ++ [d]) hpos (v - d) v (by omega)]
  · rw [if_neg hdv, if_neg hdv]

/-- Two sweeps commute: if `s` and `u` arise from `w` and `t` by the sweep for `e`, and
`t` arises from `w` by the sweep for `d`, then `u` arises from `s` by the sweep for `d`. -/
theorem sweep_comm (d e : Nat) (he : 0 < e) (w s t u : Nat → Nat)
    (hs : ∀ v, s v = w v + (if e ≤ v then s (v - e) else 0))
    (ht : ∀ v, t v = w v + (if d ≤ v then t (v - d) else 0))
    (hu : ∀ v, u v = t v + (if e ≤ v then u (v - e) else 0)) :
    ∀ v, u v = s v + (if d ≤ v then u (v - d) else 0) := by
  intro v
  induction v using Nat.strong_induction_on with
  | _ v ih =>
    have a1 := hu v
    have a2 := ht v
    have a3 := hs v
    by_cases hev : e ≤ v
    · have a4 := ih (v - e) (by omega)
      rw [if_pos hev] at a1 a3
      by_cases hdv : d ≤ v
      · have a5 := hu (v - d)
        rw [if_pos hdv] at a2 ⊢
        by_cases hde : d ≤ v - e
        · have hed : e ≤ v - d := by omega
          rw [if_pos hde] at a4
          rw [if_pos hed, Nat.sub_right_comm v d e] at a5
          omega
        · have hed : ¬ e ≤ v - d := by omega
          rw [if_neg hde] at a4
          rw [if_neg hed] at a5
          omega
      · have hde : ¬ d ≤ v - e := by omega
        rw [if_neg hdv] at a2 ⊢
        rw [if_neg hde] at a4
        omega
    · rw [if_neg hev] at a1 a3
      by_cases hdv : d ≤ v
      · have a5 := hu (v - d)
        have hed : ¬ e ≤ v - d := by omega
        rw [if_pos hdv] at a2 ⊢
        rw [if_neg hed] at a5
        omega
      · rw [if_neg hdv] at a2 ⊢
        omega

/-- Recurrence of the tabulated count in the first denomination: the order in which
the denominations are processed does not matter. -/
theorem numberOfWays_cons (ds : List Nat) : ∀ (d : Nat), (∀ x ∈ d :: ds, 0 < x) →
    ∀ v, NumberOfWaysToMakeChangeDP v (d :: ds) =
      NumberOfWaysToMakeChangeDP v ds +
        (if d ≤ v then NumberOfWaysToMakeChangeDP (v - d) (d :: ds) else 0) := by
  induction ds using List.reverseRecOn with
  | nil =>
    intro d hpos v
    exact numberOfWays_snoc [] d v (by simpa using hpos)
  | append_singleton l e ih =>
    intro d hpos
    have hdl : ∀ x ∈ d :: l, 0 < x := fun x hx => hpos x (by
      rcases List.mem_cons.1 hx with h | h
      · exact List.mem_cons.2 (Or.inl h)
      · exact List.mem_cons.2 (Or.inr (List.mem_append_left _ h)))
    have hle : ∀ x ∈ l ++ [e], 0 < x := fun x hx => hpos x (List.mem_cons_of_mem _ hx)
    have he : 0 < e := hle e (by simp)
    have hdle : ∀ x ∈ (d :: l) ++ [e], 0 < x := by simpa using hpos
    exact sweep_comm d e he
      (fun v => NumberOfWaysToMakeChangeDP v l)
      (fun v => NumberOfWaysToMakeChangeDP v (l ++ [e]))
      (fun v => NumberOfWaysToMakeChangeDP v (d :: l))
      (fun v => NumberOfWaysToMakeChangeDP v (d :: (l ++ [e])))
      (fun v => numberOfWays_snoc l e v hle)
      (fun v => ih d hdl v)
      (fun v => numberOfWays_snoc (d :: l) e v hdle)

theorem numberOfWays_zero (ds : List Nat) (hpos : ∀ x ∈ ds, 0 < x) :
    NumberOfWaysToMakeChangeDP 0 ds = 1 := by
  induction ds with
  | nil => rfl
  | cons d ds ih =>
    rw [numberOfWays_cons ds d hpos 0, if_neg (by have := hpos d (List.mem_cons_self _ _); omega),
      ih (fun x hx => hpos x (List.mem_cons_of_mem _ hx))]

/-- The recursive `helper` from index `dIdx`: with enough fuel it returns the tabulated
count for the denominations from `dIdx` on, except that it returns 0 when none is left. -/
theorem helper_spec_ways (denoms : List Nat) (hpos : ∀ x ∈ denoms, 0 < x) :
    ∀ (k dIdx : Nat), dIdx + k = denoms.length →
    ∀ (n fuel : Nat), n + k + 1 ≤ fuel →
    helper fuel n denoms dIdx =
      some (if k = 0 then 0 else NumberOfWaysToMakeChangeDP n (denoms.drop dIdx)) := by
  intro k
  induction k with
  | zero =>
    intro dIdx hk n fuel hf
    obtain ⟨f, rfl⟩ : ∃ f, fuel = f + 1 := ⟨fuel - 1, by omega⟩
    rw [helper, if_pos (by omega), if_pos rfl]
  | succ k ihk =>
    intro dIdx hk n
    induction n using Nat.strong_induction_on with
    | _ n ihn =>
      intro fuel hf
      obtain ⟨f, rfl⟩ : ∃ f, fuel = f + 1 := ⟨fuel - 1, by omega⟩
      have hlt : dIdx < denoms.length := by omega
      have hdrop : denoms.drop dIdx = denoms[dIdx] :: denoms.drop (dIdx + 1) :=
        List.drop_eq_getElem_cons hlt
      have hposd : ∀ x ∈ denoms[dIdx] :: denoms.drop (dIdx + 1), 0 < x := by
        intro x hx
        rw [← hdrop] at hx
        exact hpos x (List.mem_of_mem_drop hx)
      have hd : 0 < denoms[dIdx] := hposd _ (List.mem_cons_self _ _)
      rw [helper, if_neg (by omega), if_neg (Nat.succ_ne_zero k), hdrop]
      by_cases hn : n = 0
      · subst hn
        rw [if_pos rfl, numberOfWays_zero _ hposd]
      · rw [if_neg hn, ihk (dIdx + 1) (by omega) n f (by omega)]
        dsimp only
        rw [List.getElem?_eq_getElem hlt]
        dsimp only
        have hexcl : (if k = 0 then 0 else
            NumberOfWaysToMakeChangeDP n (denoms.drop (dIdx + 1))) =
            NumberOfWaysToMakeChangeDP n (denoms.drop (dIdx + 1)) := by
          by_cases hk0 : k = 0
          · rw [if_pos hk0]
            have : denoms.drop (dIdx + 1) = [] := List.drop_eq_nil_of_le (by omega)
            rw [this, numberOfWays_nil, if_neg hn]
          · rw [if_neg hk0]
        rw [hexcl, numberOfWays_cons _ _ hposd n]
        by_cases hge : n ≥ denoms[dIdx]
        · rw [if_pos hge, if_pos hge, ihn (n - denoms[dIdx]) (by omega) f (by omega),
            if_neg (Nat.succ_ne_zero k), hdrop]
        · rw [if_neg hge, if_neg hge]

/-- For a non-empty list of positive denominations the recursive count returns, with
enough fuel, the tabulated count. -/
theorem numberOfWaysRec_eq (n : Nat) (denoms : List Nat) (hne : denoms ≠ [])
    (hpos : ∀ x ∈ denoms, 0 < x) (fuel : Nat) (hf : n + denoms.length + 1 ≤ fuel) :
    NumberOfWaysToMakeChange fuel n denoms = some (NumberOfWaysToMakeChangeDP n denoms) := by
  unfold NumberOfWaysToMakeChange
  rw [helper_spec_ways denoms hpos denoms.length 0 (by omega) n fuel hf,
    if_neg (by
      intro h
      exact hne (List.length_eq_zero.1 h)), List.drop_zero]

end MakeChangeRec

/-! ## The slots of arrays/findThreeLargest.go -/

section FindThreeLargestCode

open FindThreeLargest

theorem updateAndShift_two (v x y z : Int) : updateAndShift v [x, y, z] 2 = [y, z, v] := rfl

theorem updateAndShift_one (v x y z : Int) : updateAndShift v [x, y, z] 1 = [y, v, z] := rfl

theorem updateAndShift_zero (v x y z : Int) : updateAndShift v [x, y, z] 0 = [v, y, z] := rfl

theorem updateLargest_eq (v x y z : Int) :
    updateLargest [x, y, z] v =
      if v > z then [y, z, v] else if v > y then [y, v, z]
      else if v > x then [v, y, z] else [x, y, z] := rfl

/-- One call of `updateLargest`: the slots stay in ascending order and, together with
a remainder of values not above the smallest slot, hold everything seen so far. -/
theorem updateLargest_inv (m v x y z : Int) (P R : Multiset Int) (hxy : x ≤ y) (hyz : y ≤ z)
    (hP : ({m} + {m} + {m} + P : Multiset Int) = {x} + {y} + {z} + R)
    (hR : ∀ r ∈ R, r ≤ x) :
    ∃ x2 y2 z2 R2, updateLargest [x, y, z] v = [x2, y2, z2] ∧ x2 ≤ y2 ∧ y2 ≤ z2 ∧
      ({m} + {m} + {m} + ({v} + P) : Multiset Int) = {x2} + {y2} + {z2} + R2 ∧
      ∀ r ∈ R2, r ≤ x2 := by
  have hv : ({m} + {m} + {m} + ({v} + P) : Multiset Int) = {v} + ({x} + {y} + {z} + R) := by
    rw [← hP]; abel
  rw [updateLargest_eq, hv]
  by_cases h1 : v > z
  · rw [if_pos h1]
    refine ⟨y, z, v, {x} + R, rfl, hyz, by omega, by abel, ?_⟩
    intro r hr
    rcases Multiset.mem_add.1 hr with h | h
    · rw [Multiset.mem_singleton.1 h]; exact hxy
    · exact (hR r h).trans hxy
  · rw [if_neg h1]
    by_cases h2 : v > y
    · rw [if_pos h2]
      refine ⟨y, v, z, {x} + R, rfl, by omega, by omega, by abel, ?_⟩
      intro r hr
      rcases Multiset.mem_add.1 hr with h | h
      · rw [Multiset.mem_singleton.1 h]; exact hxy
      · exact (hR r h).trans hxy
    · rw [if_neg h2]
      by_cases h3 : v > x
      · rw [if_pos h3]
        refine ⟨v, y, z, {x} + R, rfl, by omega, hyz, by abel, ?_⟩
        intro r hr
        rcases Multiset.mem_add.1 hr with h | h
        · rw [Multiset.mem_singleton.1 h]; omega
        · have := hR r h; omega
      · rw [if_neg h3]
        refine ⟨x, y, z, {v} + R, rfl, hxy, hyz, by abel, ?_⟩
        intro r hr
        rcases Multiset.mem_add.1 hr with h | h
        · rw [Multiset.mem_singleton.1 h]; omega
        · exact hR r h

/-- The loop of `FindThreeLargestNumbers` keeps the invariant of `updateLargest`. -/
theorem foldl_updateLargest_inv (m : Int) : ∀ (array : List Int) (x y z : Int)
    (P R : Multiset Int), x ≤ y → y ≤ z →
    ({m} + {m} + {m} + P : Multiset Int) = {x} + {y} + {z} + R → (∀ r ∈ R, r ≤ x) →
    ∃ x2 y2 z2 R2, array.foldl updateLargest [x, y, z] = [x2, y2, z2] ∧ x2 ≤ y2 ∧ y2 ≤ z2 ∧
      ({m} + {m} + {m} + (P + (array : Multiset Int)) : Multiset Int) =
        {x2} + {y2} + {z2} + R2 ∧
      ∀ r ∈ R2, r ≤ x2 := by
  intro array
  induction array with
  | nil =>
    intro x y z P R hxy hyz hP hR
    exact ⟨x, y, z, R, rfl, hxy, hyz, by simpa using hP, hR⟩
  | cons v array ih =>
    intro x y z P R hxy hyz hP hR
    obtain ⟨x1, y1, z1, R1, e, h1, h2, h3, h4⟩ := updateLargest_inv m v x y z P R hxy hyz hP hR
    rw [List.foldl_cons, e]
    obtain ⟨x2, y2, z2, R2, e2, g1, g2, g3, g4⟩ := ih x1 y1 z1 ({v} + P) R1 h1 h2 h3 h4
    refine ⟨x2, y2, z2, R2, e2, g1, g2, ?_, g4⟩
    rw [← g3, ← Multiset.cons_coe, ← Multiset.singleton_add]
    abel

/-- For an array of at least three values, none below `math.MinInt32`, the result of
`FindThreeLargestNumbers` is `[x, y, z]` in ascending order, and the array consists of
these three values and of values that are not above `x`. -/
theorem findThreeLargest_spec (array : List Int) (hlen : 3 ≤ array.length)
    (hmin : ∀ v ∈ array, MinInt32 ≤ v) :
    ∃ x y z R, FindThreeLargestNumbers array = [x, y, z] ∧ x ≤ y ∧ y ≤ z ∧
      (array : Multiset Int) = x ::ₘ y ::ₘ z ::ₘ R ∧ ∀ r ∈ R, r ≤ x := by
  obtain ⟨x, y, z, R, e, hxy, hyz, hP, hR⟩ :=
    foldl_updateLargest_inv MinInt32 array MinInt32 MinInt32 MinInt32 0 0 le_rfl le_rfl rfl
      (by simp)
  rw [zero_add] at hP
  -- every value on either side is at least the sentinel
  have hge : ∀ r, r ∈ ({x} + {y} + {z} + R : Multiset Int) → MinInt32 ≤ r := by
    intro r hr
    rw [← hP] at hr
    simp only [Multiset.mem_add, Multiset.mem_singleton, Multiset.mem_coe] at hr
    rcases hr with ((h | h) | h) | h
    · rw [h]
    · rw [h]
    · rw [h]
    · exact hmin r h
  have hx : MinInt32 ≤ x := hge x (by simp)
  have hcard : Multiset.card R = array.length := by
    have := congrArg Multiset.card hP
    simp only [Multiset.card_add, Multiset.card_singleton, Multiset.coe_card] at this
    omega
  -- the remainder holds the three sentinels
  have hcount : 3 ≤ Multiset.count MinInt32 R := by
    by_cases hxm : x = MinInt32
    · have hall : ∀ r ∈ R, r = MinInt32 := by
        intro r hr
        have h1 := hR r hr
        have h2 := hge r (by simp [hr])
        omega
      have hrep := Multiset.eq_replicate_card.2 hall
      rw [hrep, Multiset.count_replicate_self, hcard]
      exact hlen
    · have hx2 : MinInt32 < x := lt_of_le_of_ne hx (Ne.symm hxm)
      have hc := congrArg (Multiset.count MinInt32) hP
      simp only [Multiset.count_add, Multiset.count_singleton_self] at hc
      have c1 : Multiset.count MinInt32 ({x} : Multiset Int) = 0 :=
        Multiset.count_eq_zero.2 (by simp; omega)
      have c2 : Multiset.count MinInt32 ({y} : Multiset Int) = 0 :=
        Multiset.count_eq_zero.2 (by simp; omega)
      have c3 : Multiset.count MinInt32 ({z} : Multiset Int) = 0 :=
        Multiset.count_eq_zero.2 (by simp; omega)
      omega
  obtain ⟨R2, hR2⟩ := Multiset.le_iff_exists_add.1
    (Multiset.le_count_iff_replicate_le.1 hcount)
  have hrep3 : Multiset.replicate 3 MinInt32 =
      ({MinInt32} + {MinInt32} + {MinInt32} : Multiset Int) := by
    rfl
  refine ⟨x, y, z, R2, e, hxy, hyz, ?_, ?_⟩
  · rw [hR2, hrep3] at hP
    have h2 : ({MinInt32} + {MinInt32} + {MinInt32} + (array : Multiset Int) : Multiset Int) =
        {MinInt32} + {MinInt32} + {MinInt32} + ({x} + {y} + {z} + R2) := by
      rw [hP]; abel
    have h3 := add_left_cancel h2
    rw [h3, ← Multiset.singleton_add, ← Multiset.singleton_add, ← Multiset.singleton_add]
    abel
  · intro r hr
    exact hR r (by rw [hR2]; exact Multiset.mem_add.2 (Or.inr hr))

end FindThreeLargestCode

/-! ## The 64-bit table of dp/makeChange.go -/

section MakeChange64

open Spec MakeChange

theorem wrap64_add (a b : Int) : wrap64 (wrap64 a + wrap64 b) = wrap64 (a + b) := by
  unfold wrap64; omega

theorem wrap64_of_lt (x : Int) (h0 : 0 ≤ x) (h1 : x < 9223372036854775808) :
    wrap64 x = x := by
  unfold wrap64; omega

theorem getD_map_wrap64 (w : List Nat) (i : Nat) :
    (w.map (fun (x : Nat) => wrap64 (x : Int))).getD i 0 = wrap64 ((w.getD i 0 : Nat) : Int) := by
  have h := List.getD_map w 0 (n := i) (fun x : Nat => wrap64 (x : Int))
  exact h

/-- One update of the 64-bit table is the wrapped image of the exact update. -/
theorem waysStep64 (d val : Nat) (w : List Nat) :
    (if val ≥ d then
        (w.map (fun (x : Nat) => wrap64 (x : Int))).set val
          (wrap64 ((w.map (fun (x : Nat) => wrap64 (x : Int))).getD val 0 +
            (w.map (fun (x : Nat) => wrap64 (x : Int))).getD (val - d) 0))
      else w.map (fun (x : Nat) => wrap64 (x : Int))) =
    (if val ≥ d then w.set val (w.getD val 0 + w.getD (val - d) 0) else w).map
      (fun (x : Nat) => wrap64 (x : Int)) := by
  by_cases h : val ≥ d
  · rw [if_pos h, if_pos h, List.map_set, getD_map_wrap64, getD_map_wrap64, wrap64_add]
    push_cast
    rfl
  · rw [if_neg h, if_neg h]

theorem waysSweep64 (d : Nat) : ∀ (l : List Nat) (w : List Nat),
    l.foldl (fun (ways : List Int) val =>
        if val ≥ d then ways.set val (wrap64 (ways.getD val 0 + ways.getD (val - d) 0))
        else ways) (w.map (fun (x : Nat) => wrap64 (x : Int))) =
    (l.foldl (fun (ways : List Nat) val =>
        if val ≥ d then ways.set val (ways.getD val 0 + ways.getD (val - d) 0) else ways)
        w).map (fun (x : Nat) => wrap64 (x : Int)) := by
  intro l
  induction l with
  | nil => intro w; rfl
  | cons val l ih =>
    intro w
    rw [List.foldl_cons, List.foldl_cons, waysStep64 d val w, ih]

theorem waysTable64 (n : Nat) : ∀ (ds : List Nat) (w : List Nat),
    ds.foldl (fun (ways : List Int) d =>
      (List.range' 1 n).foldl (fun (ways : List Int) val =>
        if val ≥ d then ways.set val (wrap64 (ways.getD val 0 + ways.getD (val - d) 0))
        else ways) ways) (w.map (fun (x : Nat) => wrap64 (x : Int))) =
    (ds.foldl (fun (ways : List Nat) d =>
      (List.range' 1 n).foldl (fun (ways : List Nat) val =>
        if val ≥ d then ways.set val (ways.getD val 0 + ways.getD (val - d) 0) else ways)
        ways) w).map (fun (x : Nat) => wrap64 (x : Int)) := by
  intro ds
  induction ds with
  | nil => intro w; rfl
  | cons d ds ih =>
    intro w
    rw [List.foldl_cons, List.foldl_cons, waysSweep64 d _ w, ih]

/-- The 64-bit result is the exact count wrapped around. -/
theorem numberOfWays64_eq_wrap (n : Nat) (denoms : List Nat) :
    NumberOfWaysToMakeChangeDP64 n denoms =
      wrap64 ((NumberOfWaysToMakeChangeDP n denoms : Nat) : Int) := by
  have hinit : ((List.replicate (n + 1) (0 : Int)).set 0 1) =
      ((List.replicate (n + 1) (0 : Nat)).set 0 1).map (fun (x : Nat) => wrap64 (x : Int)) := by
    rw [List.map_set, List.map_replicate]
    rfl
  unfold NumberOfWaysToMakeChangeDP64 NumberOfWaysToMakeChangeDP
  dsimp only
  rw [hinit, waysTable64 n denoms, getD_map_wrap64]

/-- Below `2^63` the 64-bit result is the exact count. -/
theorem numberOfWays64_eq_of_lt (n : Nat) (denoms : List Nat)
    (h : NumberOfWaysToMakeChangeDP n denoms < 9223372036854775808) :
    NumberOfWaysToMakeChangeDP64 n denoms = (NumberOfWaysToMakeChangeDP n denoms : Int) := by
  rw [numberOfWays64_eq_wrap]
  exact wrap64_of_lt _ (by positivity) (by exact_mod_cast h)

theorem numberOfWays64_dedup_le (n : Nat) (denoms : List Nat)
    (h : NumberOfWaysToMakeChangeDP n denoms < 9223372036854775808) :
    NumberOfWaysToMakeChangeDP64 n denoms.dedup ≤ NumberOfWaysToMakeChangeDP64 n denoms := by
  have hle := ways_sublist_le n (List.dedup_sublist denoms)
  rw [numberOfWays64_eq_of_lt n denoms h, numberOfWays64_eq_of_lt n denoms.dedup (by omega)]
  exact_mod_cast hle

/-- Beyond `2^63` the 64-bit result wraps around: for amount 34 and thirty-four
denominations 1 the exact count is 14226520737620288370, the 64-bit result is negative,
and it is below the result 1 for the single denomination 1. -/
theorem numberOfWays64_wraps :
    NumberOfWaysToMakeChangeDP 34 (List.replicate 34 1) = 14226520737620288370 ∧
    NumberOfWaysToMakeChangeDP64 34 (List.replicate 34 1) = -4220223336089263246 ∧
    NumberOfWaysToMakeChangeDP64 34 (List.dedup (List.replicate 34 1)) = 1 := by
  have h1 : NumberOfWaysToMakeChangeDP 34 (List.replicate 34 1) = 14226520737620288370 := by
    decide!
  refine ⟨h1, ?_, ?_⟩
  · rw [numberOfWays64_eq_wrap, h1]
    decide
  · have e : List.dedup (List.replicate 34 1) = [1] := by decide
    rw [e]
    decide!

end MakeChange64

/-! ## The claims of the specification -/

section Claims

open Spec EditDistance MakeChange MinMakeChange

/-- Claim C1: for all strings `a` and `b`, `LevenshteinDistance1(a, b)` is the least
number of single-character insert, delete and replace operations that transform `a`
into `b`: some chain of that many edits leads from `a` to `b` and no chain is
shorter.  It is 2 for "abc" and "yabd". -/
theorem levenshteinDistance1_least_edits {α : Type} [DecidableEq α] (a b : List α) :
    IsLeast {k | EditChain k a b} (LevenshteinDistance1 a b) ∧
    LevenshteinDistance1 ['a', 'b', 'c'] ['y', 'a', 'b', 'd'] = 2 := by
  refine ⟨?_, by decide⟩
  rw [LevenshteinDistance1_eq_lev]
  exact lev_isLeast a b

/-- Claim C2: for every amount `n` and positive denominations,
`MinNumberOfCoinsForChangeDP(n, denoms)` is -1 when no multiset of the denominations
sums to `n`, and otherwise is the least number of coins in a multiset of the
denominations that sums to `n`. -/
theorem minNumberOfCoinsForChangeDP_correct (n : Nat) (denoms : List Nat)
    (hpos : ∀ d ∈ denoms, 0 < d) :
    (changeMultisets n denoms = ∅ → MinNumberOfCoinsForChangeDP n denoms = -1) ∧
    ((changeMultisets n denoms).Nonempty →
      IsLeast {k : Int | ∃ m ∈ changeMultisets n denoms, (Multiset.card m : Int) = k}
        (MinNumberOfCoinsForChangeDP n denoms)) :=
  minDP_spec n denoms hpos

/-- Witness for C2: amount 11 with denominations [1, 2, 5], reached by 5 + 5 + 1. -/
theorem minNumberOfCoinsForChangeDP_correct_witness :
    (∀ d ∈ [1, 2, 5], 0 < d) ∧
    IsLeast {k : Int | ∃ m ∈ changeMultisets 11 [1, 2, 5], (Multiset.card m : Int) = k}
      (MinNumberOfCoinsForChangeDP 11 [1, 2, 5]) :=
  ⟨by decide, (minNumberOfCoinsForChangeDP_correct 11 [1, 2, 5] (by decide)).2
    ⟨{5, 5, 1}, by decide, by decide⟩⟩

/-- Claim C3: for every amount `n` and every duplicate-free list of positive
denominations, `NumberOfWaysToMakeChangeDP(n, denoms)` is the number of distinct
multisets of the denominations whose sum is `n` (there are finitely many), over
unbounded integers; it is 1 for `n = 0` and 4 for `n = 5` with denominations [1, 2, 5]. -/
theorem numberOfWaysToMakeChangeDP_counts_multisets (n : Nat) (denoms : List Nat)
    (hnd : denoms.Nodup) (hpos : ∀ d ∈ denoms, 0 < d) :
    (changeMultisets n denoms).Finite ∧
    (changeMultisets n denoms).ncard = NumberOfWaysToMakeChangeDP n denoms ∧
    NumberOfWaysToMakeChangeDP 0 denoms = 1 ∧
    NumberOfWaysToMakeChangeDP 5 [1, 2, 5] = 4 := by
  have h := ways_encard n denoms hnd hpos
  refine ⟨Set.finite_of_encard_eq_coe h, ?_, ?_, by decide⟩
  · rw [Set.ncard_def, h]; rfl
  · have h0 := ways_encard 0 denoms hnd hpos
    have e : changeMultisets 0 denoms = {0} := by
      ext m
      simp only [changeMultisets, Set.mem_setOf_eq, Set.mem_singleton_iff]
      constructor
      · rintro ⟨h1, h2⟩
        apply Multiset.eq_zero_of_forall_not_mem
        intro x hx
        have := hpos x (h1 x hx)
        have := Multiset.le_sum_of_mem hx
        omega
      · rintro rfl; simp
    rw [e, Set.encard_singleton] at h0
    exact_mod_cast h0.symm

/-- Witness for C3: amount 5 with denominations [1, 2, 5]. -/
theorem numberOfWaysToMakeChangeDP_counts_multisets_witness :
    ([1, 2, 5] : List Nat).Nodup ∧ (∀ d ∈ [1, 2, 5], 0 < d) ∧
    (changeMultisets 5 [1, 2, 5]).ncard = 4 := by
  have h := numberOfWaysToMakeChangeDP_counts_multisets 5 [1, 2, 5] (by decide) (by decide)
  exact ⟨by decide, by decide, h.2.1.trans h.2.2.2⟩

/-- Claim C4, at its failing input: for amount 0 and no denominations the tabulated
`NumberOfWaysToMakeChangeDP` returns 1 (the empty combination) while the recursive
`NumberOfWaysToMakeChange` returns 0, whatever fuel it is given. -/
theorem numberOfWaysToMakeChange_zero_nil_differs :
    NumberOfWaysToMakeChangeDP 0 [] = 1 ∧
    ∀ fuel, NumberOfWaysToMakeChange (fuel + 1) 0 [] = some 0 :=
  ⟨by decide, fun _ => rfl⟩

/-- Claim C5, at its failing input: for amount 3 and denominations [2] the tabulated
`MinNumberOfCoinsForChangeDP` returns the sentinel -1 while the recursive
`MinNumberOfCoinsForChangeRec` returns 0, whatever fuel (at least 2) it is given. -/
theorem minNumberOfCoinsForChangeRec_three_two_differs :
    MinNumberOfCoinsForChangeDP 3 [2] = -1 ∧
    ∀ fuel, MinNumberOfCoinsForChangeRec (fuel + 2) 3 [2] = some 0 :=
  ⟨by decide, fun _ => by
    simp [MinNumberOfCoinsForChangeRec, recLoop, MinMakeChange.min]⟩

/-- Counterexample to C6: with the repeated denomination list [1, 1] and amount 1 the
result is 2, but it is 1 once the repeated value is removed; this holds over unbounded
integers and with the 64-bit `int`. -/
theorem numberOfWaysToMakeChangeDP_dedup_counterexample :
    (∀ d ∈ [1, 1], 0 < d) ∧
    NumberOfWaysToMakeChangeDP 1 [1, 1] = 2 ∧
    NumberOfWaysToMakeChangeDP 1 (List.dedup [1, 1]) = 1 ∧
    NumberOfWaysToMakeChangeDP 1 [1, 1] ≠ NumberOfWaysToMakeChangeDP 1 (List.dedup [1, 1]) ∧
    NumberOfWaysToMakeChangeDP64 1 [1, 1] = 2 ∧
    NumberOfWaysToMakeChangeDP64 1 (List.dedup [1, 1]) = 1 ∧
    NumberOfWaysToMakeChangeDP64 1 [1, 1] ≠
      NumberOfWaysToMakeChangeDP64 1 (List.dedup [1, 1]) := by
  decide

/-- Claim C6, amended: every entry of the denomination list is a coin type of its own;
repeated values are not merged.  For every amount `n` and every list of positive
denominations, with the 64-bit `int` of Go: if `denoms` has no repeated values, the
result equals the result for `denoms` with the repeated values removed; and if the exact
number of ways for `denoms` is below `2^63`, so that the result has not wrapped around,
`NumberOfWaysToMakeChangeDP(n, dedup denoms) ≤ NumberOfWaysToMakeChangeDP(n, denoms)`. -/
theorem numberOfWaysToMakeChangeDP64_dedup (n : Nat) (denoms : List Nat)
    (_hpos : ∀ d ∈ denoms, 0 < d) :
    (denoms.Nodup →
      NumberOfWaysToMakeChangeDP64 n denoms = NumberOfWaysToMakeChangeDP64 n denoms.dedup) ∧
    (NumberOfWaysToMakeChangeDP n denoms < 9223372036854775808 →
      NumberOfWaysToMakeChangeDP64 n denoms.dedup ≤ NumberOfWaysToMakeChangeDP64 n denoms) :=
  ⟨fun h => by rw [h.dedup], numberOfWays64_dedup_le n denoms⟩

/-- Witness for the amended C6: amount 3 with the repeated list [1, 1, 2] (6 ways against
2 once the repeated 1 is removed), and amount 5 with the duplicate-free list [1, 2, 5]. -/
theorem numberOfWaysToMakeChangeDP64_dedup_witness :
    (∀ d ∈ [1, 1, 2], 0 < d) ∧
    NumberOfWaysToMakeChangeDP 3 [1, 1, 2] < 9223372036854775808 ∧
    NumberOfWaysToMakeChangeDP64 3 (List.dedup [1, 1, 2]) ≤
      NumberOfWaysToMakeChangeDP64 3 [1, 1, 2] ∧
    NumberOfWaysToMakeChangeDP64 3 (List.dedup [1, 1, 2]) = 2 ∧
    NumberOfWaysToMakeChangeDP64 3 [1, 1, 2] = 6 ∧
    (∀ d ∈ [1, 2, 5], 0 < d) ∧ ([1, 2, 5] : List Nat).Nodup ∧
    NumberOfWaysToMakeChangeDP64 5 [1, 2, 5] =
      NumberOfWaysToMakeChangeDP64 5 (List.dedup [1, 2, 5]) :=
  ⟨by decide, by decide,
    (numberOfWaysToMakeChangeDP64_dedup 3 [1, 1, 2] (by decide)).2 (by decide),
    by decide, by decide, by decide, by decide,
    (numberOfWaysToMakeChangeDP64_dedup 5 [1, 2, 5] (by decide)).1 (by decide)⟩

/-- Claim C7: for all strings `a` and `b`, the space-optimised `LevenshteinDistance(a, b)`
returns the same value as the full-table `LevenshteinDistance1(a, b)`. -/
theorem levenshteinDistance_eq_levenshteinDistance1 {α : Type} [DecidableEq α]
    (a b : List α) : LevenshteinDistance a b = LevenshteinDistance1 a b := by
  rw [LevenshteinDistance_eq_lev, LevenshteinDistance1_eq_lev]

/-- Claim C8: edit distance is symmetric, `LevenshteinDistance(a, b) =
LevenshteinDistance(b, a)` for all strings, of equal length or not. -/
theorem levenshteinDistance_symm {α : Type} [DecidableEq α] (a b : List α) :
    LevenshteinDistance a b = LevenshteinDistance b a := by
  rw [LevenshteinDistance_eq_lev, LevenshteinDistance_eq_lev, lev_comm]

/-- Claim C9: for all strings, `LevenshteinDistance(a, b) ≤ max(len(a), len(b))`. -/
theorem levenshteinDistance_le_max {α : Type} [DecidableEq α] (a b : List α) :
    LevenshteinDistance a b ≤ max a.length b.length := by
  rw [LevenshteinDistance_eq_lev]
  exact lev_le_max a b

/-- Claim C10: for every string `s`, `LevenshteinDistance("", s) = len(s)` and
`LevenshteinDistance(s, "") = len(s)`; in particular the distance is 0 for "" and ""
and 3 for "" and "abc". -/
theorem levenshteinDistance_empty {α : Type} [DecidableEq α] (s : List α) :
    LevenshteinDistance [] s = s.length ∧ LevenshteinDistance s [] = s.length ∧
    LevenshteinDistance ([] : List Char) [] = 0 ∧
    LevenshteinDistance [] ['a', 'b', 'c'] = 3 := by
  refine ⟨?_, ?_, by decide, by decide⟩
  · rw [LevenshteinDistance_eq_lev, lev_nil_left]
  · rw [LevenshteinDistance_eq_lev, lev_nil_right]

/-- Claim C11: for every amount `n` and positive denominations, if
`MinNumberOfCoinsForChangeDP(n, denoms)` and `MinNumberOfCoinsForChangeDP(1, denoms)` are
both reachable (neither is -1), then `MinNumberOfCoinsForChangeDP(n+1, denoms)` is
reachable and is at most the sum of the two. -/
theorem minNumberOfCoinsForChangeDP_succ_le (n : Nat) (denoms : List Nat)
    (hpos : ∀ d ∈ denoms, 0 < d)
    (hn : MinNumberOfCoinsForChangeDP n denoms ≠ -1)
    (h1 : MinNumberOfCoinsForChangeDP 1 denoms ≠ -1) :
    MinNumberOfCoinsForChangeDP (n + 1) denoms ≠ -1 ∧
    MinNumberOfCoinsForChangeDP (n + 1) denoms ≤
      MinNumberOfCoinsForChangeDP n denoms + MinNumberOfCoinsForChangeDP 1 denoms :=
  minDP_succ_le n denoms hpos hn h1

/-- Witness for C11: amount 10 with denominations [1, 2, 5]. -/
theorem minNumberOfCoinsForChangeDP_succ_le_witness :
    (∀ d ∈ [1, 2, 5], 0 < d) ∧
    MinNumberOfCoinsForChangeDP 10 [1, 2, 5] ≠ -1 ∧
    MinNumberOfCoinsForChangeDP 1 [1, 2, 5] ≠ -1 ∧
    MinNumberOfCoinsForChangeDP 11 [1, 2, 5] ≠ -1 ∧
    MinNumberOfCoinsForChangeDP 11 [1, 2, 5] ≤
      MinNumberOfCoinsForChangeDP 10 [1, 2, 5] + MinNumberOfCoinsForChangeDP 1 [1, 2, 5] :=
  ⟨by decide, by decide, by decide,
    minNumberOfCoinsForChangeDP_succ_le 10 [1, 2, 5] (by decide) (by decide) (by decide)⟩

/-- Claim C12: for all integer arrays `array` and `sequence`, `IsValidSubsequence` and
`IsValidSubsequence1` (given fuel beyond `len(array)`) both return whether `sequence`
is a subsequence of `array`: its elements occur in `array` in the same order, not
necessarily next to each other.  Both return true for [1,2,3,4] and [1,3,4]. -/
theorem isValidSubsequence_iff_sublist (array sequence : List Int) (fuel : Nat)
    (hf : array.length < fuel) :
    ValidateSubsequence.IsValidSubsequence array sequence =
      some (decide (sequence.Sublist array)) ∧
    ValidateSubsequence.IsValidSubsequence1 fuel array sequence =
      some (decide (sequence.Sublist array)) ∧
    ValidateSubsequence.IsValidSubsequence [1, 2, 3, 4] [1, 3, 4] = some true ∧
    ValidateSubsequence.IsValidSubsequence1 5 [1, 2, 3, 4] [1, 3, 4] = some true :=
  ⟨isValidSubsequence_eq array sequence, isValidSubsequence1_eq array sequence fuel hf,
    by decide, by decide⟩

/-- Witness for C12: a sequence that is out of order, [3, 1] in [1, 2, 3, 4]. -/
theorem isValidSubsequence_iff_sublist_witness :
    ([1, 2, 3, 4] : List Int).length < 5 ∧
    ValidateSubsequence.IsValidSubsequence [1, 2, 3, 4] [3, 1] = some false ∧
    ValidateSubsequence.IsValidSubsequence1 5 [1, 2, 3, 4] [3, 1] = some false := by
  have h := isValidSubsequence_iff_sublist [1, 2, 3, 4] [3, 1] 5 (by decide)
  have e : decide (([3, 1] : List Int).Sublist [1, 2, 3, 4]) = false := by decide
  rw [e] at h
  exact ⟨by decide, h.1, h.2.1⟩

/-- Claim C13: for every array sorted in ascending order and every target,
`BinarySearch` of sorting/binarySearch.go (given fuel beyond `len(array)`) returns -1 if
the target does not occur in the array and otherwise an index in range at which the
array holds the target; the recursive `BinarySearch1` returns the same value. -/
theorem sortingBinarySearch_correct (array : List Int) (target : Int)
    (hs : array.Sorted (· ≤ ·)) (fuel : Nat) (hf : array.length < fuel) :
    ∃ v, SortingBinarySearch.BinarySearch fuel array target = Outcome.ret v ∧
      SortingBinarySearch.BinarySearch1 fuel array target = Outcome.ret v ∧
      (target ∉ array → v = -1) ∧
      (target ∈ array → 0 ≤ v ∧ v < (array.length : Int) ∧ index array v = some target) :=
  sortingBinarySearch_spec array target hs fuel hf

/-- Witness for C13: the array [1, 3, 5, 7] and the target 5. -/
theorem sortingBinarySearch_correct_witness :
    ([1, 3, 5, 7] : List Int).Sorted (· ≤ ·) ∧ ([1, 3, 5, 7] : List Int).length < 5 ∧
    ∃ v, SortingBinarySearch.BinarySearch 5 [1, 3, 5, 7] 5 = Outcome.ret v ∧
      SortingBinarySearch.BinarySearch1 5 [1, 3, 5, 7] 5 = Outcome.ret v ∧
      ((5 : Int) ∉ ([1, 3, 5, 7] : List Int) → v = -1) ∧
      ((5 : Int) ∈ ([1, 3, 5, 7] : List Int) →
        0 ≤ v ∧ v < (([1, 3, 5, 7] : List Int).length : Int) ∧
          index [1, 3, 5, 7] v = some 5) :=
  ⟨by decide, by decide, sortingBinarySearch_correct [1, 3, 5, 7] 5 (by decide) 5 (by decide)⟩

/-- Claim C14, at its failing inputs: on the empty array, and on [1] with target 2, the
recursive `BinarySearch` of trees/binarySearch.go indexes outside the array (it starts
with `right = len(array)`), while the iterative `BinarySearchIter` returns -1. -/
theorem treesBinarySearch_indexes_outside :
    (∀ fuel target, TreesBinarySearch.BinarySearch (fuel + 1) [] target = Outcome.panic) ∧
    (∀ fuel target, TreesBinarySearch.BinarySearchIter (fuel + 1) [] target =
      Outcome.ret (-1)) ∧
    (∀ fuel, TreesBinarySearch.BinarySearch (fuel + 2) [1] 2 = Outcome.panic) ∧
    (∀ fuel, TreesBinarySearch.BinarySearchIter (fuel + 2) [1] 2 = Outcome.ret (-1)) := by
  exact ⟨fun _ _ => rfl, fun _ _ => rfl, fun _ => rfl, fun _ => rfl⟩

/-- Claim C15: for every integer array, the empty one included, `BubbleSort` (given fuel
`len(array) + 2` or more) returns an array that is sorted in non-decreasing order and
is a permutation of the input. -/
theorem bubbleSort_sorted_perm (array : List Int) (fuel : Nat)
    (hf : array.length + 2 ≤ fuel) :
    ∃ out, SortingBubbleSort.BubbleSort fuel array = some out ∧ out.Perm array ∧
      out.Sorted (· ≤ ·) :=
  bubbleSort_spec array fuel hf

/-- Witness for C15: the array [3, 1, 2]. -/
theorem bubbleSort_sorted_perm_witness :
    ([3, 1, 2] : List Int).length + 2 ≤ 5 ∧
    ∃ out, SortingBubbleSort.BubbleSort 5 [3, 1, 2] = some out ∧ out.Perm [3, 1, 2] ∧
      out.Sorted (· ≤ ·) :=
  ⟨by decide, bubbleSort_sorted_perm [3, 1, 2] 5 (by decide)⟩

/-- Claim C16: for every `n ≥ 1`, `GetNthFibIter(n)` and `GetNthFibRecurMem(n)` (given
fuel `n` or more) both return the `n`-th Fibonacci number `fib n`, where `fib 1 = 0`,
`fib 2 = 1` and `fib k = fib (k - 1) + fib (k - 2)` for `k > 2`, over unbounded
integers. -/
theorem getNthFib_eq_fib (n fuel : Nat) (hn : 1 ≤ n) (hf : n ≤ fuel) :
    Fibonacci.GetNthFibIter fuel (n : Int) = some (fib n) ∧
    Fibonacci.GetNthFibRecurMem fuel (n : Int) = some (fib n) ∧
    fib 1 = 0 ∧ fib 2 = 1 ∧ ∀ k, 2 < k → fib k = fib (k - 1) + fib (k - 2) := by
  refine ⟨getNthFibIter_eq n fuel hn hf, getNthFibRecurMem_eq n fuel hn hf, rfl, rfl, ?_⟩
  intro k hk
  obtain ⟨j, rfl⟩ : ∃ j, k = j + 3 := ⟨k - 3, by omega⟩
  exact fib_add_three j

/-- Witness for C16: the seventh Fibonacci number is 8. -/
theorem getNthFib_eq_fib_witness :
    Fibonacci.GetNthFibIter 7 7 = some 8 ∧ Fibonacci.GetNthFibRecurMem 7 7 = some 8 := by
  have h := getNthFib_eq_fib 7 7 (by decide) (by decide)
  exact ⟨h.1, h.2.1⟩

/-- Claim C17, at its failing input: on the array of three copies of -2147483649, one
below `math.MinInt32`, `FindThreeLargestNumbers` returns three copies of
`math.MinInt32`, a value that is not in the array; on the documented example
[10, 5, 9, 10, 12] it returns [10, 10, 12]. -/
theorem findThreeLargestNumbers_below_sentinel :
    FindThreeLargest.FindThreeLargestNumbers [-2147483649, -2147483649, -2147483649] =
      [-2147483648, -2147483648, -2147483648] ∧
    (-2147483648 : Int) ∉ ([-2147483649, -2147483649, -2147483649] : List Int) ∧
    FindThreeLargest.FindThreeLargestNumbers [10, 5, 9, 10, 12] = [10, 10, 12] := by
  decide

/-- Claim C18: for every amount `n` and every non-empty list of positive denominations,
of any length and with repeated values allowed, the recursive
`NumberOfWaysToMakeChange(n, denoms)` returns (given fuel `n + len(denoms) + 1` or more)
the value of the tabulated `NumberOfWaysToMakeChangeDP(n, denoms)`. -/
theorem numberOfWaysToMakeChange_eq_DP (n : Nat) (denoms : List Nat) (hne : denoms ≠ [])
    (hpos : ∀ d ∈ denoms, 0 < d) (fuel : Nat) (hf : n + denoms.length + 1 ≤ fuel) :
    NumberOfWaysToMakeChange fuel n denoms = some (NumberOfWaysToMakeChangeDP n denoms) :=
  numberOfWaysRec_eq n denoms hne hpos fuel hf

/-- Witness for C18: amount 3 with the repeated denominations [1, 1, 2]. -/
theorem numberOfWaysToMakeChange_eq_DP_witness :
    ([1, 1, 2] : List Nat) ≠ [] ∧ (∀ d ∈ [1, 1, 2], 0 < d) ∧
    3 + ([1, 1, 2] : List Nat).length + 1 ≤ 7 ∧
    NumberOfWaysToMakeChange 7 3 [1, 1, 2] = some (NumberOfWaysToMakeChangeDP 3 [1, 1, 2]) :=
  ⟨by decide, by decide, by decide,
    numberOfWaysToMakeChange_eq_DP 3 [1, 1, 2] (by decide) (by decide) 7 (by decide)⟩

end Claims

end Dcp
